import Mathlib

/-!
# MCTS_TTT: tic-tac-toe with a Monte Carlo tree search opponent

A shallow embedding of `src/main.cpp` and theorems about it.

Conventions of the embedding
* `vector<T>` is `List T`; `int` is `Int` for coordinates (no arithmetic is done
  on them) and `Nat` for the visit counter, which only ever counts up from `0`.
* `grid[r][c]` is read with `Game.cell`; a board whose grid is not 3x3, or a write
  outside the grid, is undefined behaviour in the source. The embedding makes
  the write a no-op there and the theorems that talk about cells carry the
  shape of the grid as a hypothesis.
* `float`/`double` arithmetic is abstracted by the class `FloatOps`: every
  theorem holds for every implementation of the operations, unless it names an
  instance. `RealInf` interprets the operations in the real numbers, `Fixed` is
  a computable instance for concrete inputs.
* A `Node*` is the path (list of child indices) from the root to the node;
  `node->parent` is the path without its last index.
* `rand()` reads the head of an infinite stream `Nat → Nat`.
* The clock of `getBestMove` is replaced by the number of passes of its loop.
-/

set_option linter.unusedVariables false

namespace MCTS_TTT

/-! ## Data model -/

/-- The enum `Player { EMPTY = 0, BOT, OPP }`. -/
inductive Player where
  | EMPTY
  | BOT
  | OPP
  deriving DecidableEq, Repr, Inhabited, Fintype

/-- The struct `Point`; both members default to `-1`. `operator==` compares both
members, which is structural equality. -/
structure Point where
  x : Int := -1
  y : Int := -1
  deriving DecidableEq, Repr, Inhabited

/-- The struct `Game`, with the member initialisers of the source: an empty 3x3
grid and the nine coordinates in the order `{0,0}, {0,1}, ..., {2,2}`
(each brace pair is `{x, y}`). -/
structure Game where
  grid : List (List Player) :=
    [[Player.EMPTY, Player.EMPTY, Player.EMPTY],
     [Player.EMPTY, Player.EMPTY, Player.EMPTY],
     [Player.EMPTY, Player.EMPTY, Player.EMPTY]]
  possibleMoves : List Point :=
    [⟨0, 0⟩, ⟨0, 1⟩, ⟨0, 2⟩, ⟨1, 0⟩, ⟨1, 1⟩, ⟨1, 2⟩, ⟨2, 0⟩, ⟨2, 1⟩, ⟨2, 2⟩]
  deriving DecidableEq, Repr, Inhabited

/-- The read `grid[r][c]`. -/
def Game.cell (g : Game) (r c : Nat) : Player :=
  (g.grid.getD r []).getD c Player.EMPTY

/-- The write `grid[r][c] = p` with `int` indices; nothing is written when the
indices are outside the grid. -/
def setCell (grid : List (List Player)) (r c : Int) (p : Player) : List (List Player) :=
  if 0 ≤ r ∧ 0 ≤ c then
    grid.set r.toNat ((grid.getD r.toNat []).set c.toNat p)
  else grid

/-- `Game::applyMove`: `find_if` locates the first legal move equal to `pos`; when
there is none the call returns `false`; otherwise the cell `grid[it->y][it->x]`
is written, that first occurrence is erased and the call returns `true`.
The result pairs the returned flag with the board after the call. -/
def Game.applyMove (g : Game) (pos : Point) (player : Player) : Bool × Game :=
  match g.possibleMoves.find? (fun p => p == pos) with
  | none => (false, g)
  | some it =>
    (true, { grid := setCell g.grid it.y it.x player
             possibleMoves := g.possibleMoves.erase it })

/-- One pass of the body of the `for` loop of `Game::getWinner` for each index of
the list, returning at the first complete row or column. -/
def Game.getWinnerLoop (g : Game) : List Nat → Option Player
  | [] => none
  | i :: rest =>
    if g.cell i 0 ≠ Player.EMPTY ∧ g.cell i 0 = g.cell i 1 ∧ g.cell i 0 = g.cell i 2 then
      some (if g.cell i 0 = Player.BOT then Player.BOT else Player.OPP)
    else if g.cell 0 i ≠ Player.EMPTY ∧ g.cell 0 i = g.cell 1 i ∧ g.cell 0 i = g.cell 2 i then
      some (if g.cell 0 i = Player.BOT then Player.BOT else Player.OPP)
    else g.getWinnerLoop rest

/-- `Game::getWinner`: the loop over `i = 0, 1, 2`, then the two diagonals. -/
def Game.getWinner (g : Game) : Player :=
  match g.getWinnerLoop [0, 1, 2] with
  | some w => w
  | none =>
    if g.cell 0 0 ≠ Player.EMPTY ∧ g.cell 0 0 = g.cell 1 1 ∧ g.cell 0 0 = g.cell 2 2 then
      (if g.cell 0 0 = Player.BOT then Player.BOT else Player.OPP)
    else if g.cell 0 2 ≠ Player.EMPTY ∧ g.cell 0 2 = g.cell 1 1 ∧ g.cell 0 2 = g.cell 2 0 then
      (if g.cell 0 2 = Player.BOT then Player.BOT else Player.OPP)
    else Player.EMPTY

/-- `Game::isTerminal`. -/
def Game.isTerminal (g : Game) : Bool :=
  g.possibleMoves.isEmpty || g.getWinner != Player.EMPTY

/-! ## Vocabulary of the board claims -/

/-- The grid has three rows of three cells. -/
def Is3x3 (grid : List (List Player)) : Prop :=
  grid.length = 3 ∧ ∀ row ∈ grid, row.length = 3

instance (grid : List (List Player)) : Decidable (Is3x3 grid) := by
  unfold Is3x3; infer_instance

/-- The coordinate names a cell of the 3x3 grid. -/
def Point.inGrid (p : Point) : Prop :=
  0 ≤ p.x ∧ p.x < 3 ∧ 0 ≤ p.y ∧ p.y < 3

instance (p : Point) : Decidable p.inGrid := by
  unfold Point.inGrid; infer_instance

/-- The cell a coordinate names: row `y`, column `x`. -/
def Game.cellAt (g : Game) (p : Point) : Player :=
  g.cell p.y.toNat p.x.toNat

/-- The nine coordinates of the grid. -/
def allPoints : List Point :=
  [⟨0, 0⟩, ⟨0, 1⟩, ⟨0, 2⟩, ⟨1, 0⟩, ⟨1, 1⟩, ⟨1, 2⟩, ⟨2, 0⟩, ⟨2, 1⟩, ⟨2, 2⟩]

/-- Number of cells of the grid that are not `EMPTY`. -/
def Game.occupied (g : Game) : Nat :=
  allPoints.countP (fun p => g.cellAt p != Player.EMPTY)

/-- The board invariant of the data model: a 3x3 grid, no legal move listed twice,
the legal moves are exactly the coordinates of the empty cells, and occupied
cells plus legal moves count nine. -/
structure BoardInv (g : Game) : Prop where
  shape : Is3x3 g.grid
  nodup : g.possibleMoves.Nodup
  legal_iff : ∀ p : Point, p ∈ g.possibleMoves ↔ (p.inGrid ∧ g.cellAt p = Player.EMPTY)
  count : g.occupied + g.possibleMoves.length = 9

/-- A sequence of `applyMove` calls, each with its coordinate and player; the
returned flags are ignored, so failed calls are part of the sequence. -/
def applyMoves (g : Game) : List (Point × Player) → Game
  | [] => g
  | (pos, pl) :: rest => applyMoves (g.applyMove pos pl).2 rest

/-- The eight lines of the grid as lists of (row, column): the rows, the columns,
the main diagonal and the anti-diagonal. -/
def winLines : List (List (Nat × Nat)) :=
  [[(0, 0), (0, 1), (0, 2)], [(1, 0), (1, 1), (1, 2)], [(2, 0), (2, 1), (2, 2)],
   [(0, 0), (1, 0), (2, 0)], [(0, 1), (1, 1), (2, 1)], [(0, 2), (1, 2), (2, 2)],
   [(0, 0), (1, 1), (2, 2)], [(0, 2), (1, 1), (2, 0)]]

/-- Every cell of the line holds `p`. -/
def Game.lineFilledBy (g : Game) (line : List (Nat × Nat)) (p : Player) : Prop :=
  ∀ rc ∈ line, g.cell rc.1 rc.2 = p

instance (g : Game) (line : List (Nat × Nat)) (p : Player) :
    Decidable (g.lineFilledBy line p) := by
  unfold Game.lineFilledBy; infer_instance

/-- The test of one line in `getWinner`: `some` of the returned player when the
three cells are equal and not `EMPTY`. -/
def lineOwner (a b c : Player) : Option Player :=
  if a ≠ Player.EMPTY ∧ a = b ∧ a = c then
    some (if a = Player.BOT then Player.BOT else Player.OPP)
  else none

/-- The cells of the eight lines in the order `getWinner` tests them. -/
def Game.scanOrder (g : Game) : List (Player × Player × Player) :=
  [(g.cell 0 0, g.cell 0 1, g.cell 0 2), (g.cell 0 0, g.cell 1 0, g.cell 2 0),
   (g.cell 1 0, g.cell 1 1, g.cell 1 2), (g.cell 0 1, g.cell 1 1, g.cell 2 1),
   (g.cell 2 0, g.cell 2 1, g.cell 2 2), (g.cell 0 2, g.cell 1 2, g.cell 2 2),
   (g.cell 0 0, g.cell 1 1, g.cell 2 2), (g.cell 0 2, g.cell 1 1, g.cell 2 0)]

/-! ## Search tree -/

/-- The floating-point operations the source uses, kept abstract. `ofInt` is the
conversion of an `int` (and of the literals `0.0f`, `1.0f`, `-1.0f`), `lit141` the
literal `1.41`, `toFloat` the narrowing of a `double` to `float`, `lt` the
comparison `<`; `lt_irrefl` is the one law of `<` the development relies on. -/
class FloatOps (F : Type) where
  inf : F
  ofInt : Int → F
  lit141 : F
  add : F → F → F
  mul : F → F → F
  div : F → F → F
  neg : F → F
  sqrt : F → F
  log : F → F
  toFloat : F → F
  lt : F → F → Bool
  lt_irrefl : ∀ a : F, lt a a = false

/-- The struct `Node` without its `parent` member: a node is addressed by the
path from the root, and its parent is the node one step up that path. -/
inductive Node (F : Type) where
  | mk (move : Point) (state : Game) (player : Player) (children : List (Node F))
      (wins : F) (visits : Nat)

namespace Node

variable {F : Type}

/-- Member `move`. -/
def move : Node F → Point
  | mk m _ _ _ _ _ => m

/-- Member `state`. -/
def state : Node F → Game
  | mk _ s _ _ _ _ => s

/-- Member `player`. -/
def player : Node F → Player
  | mk _ _ p _ _ _ => p

/-- Member `children`. -/
def children : Node F → List (Node F)
  | mk _ _ _ c _ _ => c

/-- Member `wins`. -/
def wins : Node F → F
  | mk _ _ _ _ w _ => w

/-- Member `visits`. -/
def visits : Node F → Nat
  | mk _ _ _ _ _ v => v

/-- The constructor `Node(state, move, player, parent)`: no children, `wins = 0`,
`visits = 0`. -/
def new [FloatOps F] (state : Game) (move : Point) (player : Player) : Node F :=
  mk move state player [] (FloatOps.ofInt 0) 0

/-- The node a path points to, if the path stays inside the tree. -/
def getAt : Node F → List Nat → Option (Node F)
  | n, [] => some n
  | n, i :: rest =>
    match n.children[i]? with
    | none => none
    | some c => getAt c rest

/-- In-place update of the node a path points to. -/
def modifyAt (f : Node F → Node F) : List Nat → Node F → Node F
  | [], n => f n
  | i :: rest, mk m s p c w v => mk m s p (c.modify (modifyAt f rest) i) w v

/-- `Node::getUCB1`; `parent` is `none` for a null parent pointer. -/
def getUCB1 [FloatOps F] (parent : Option (Node F)) (n : Node F) : F :=
  match parent with
  | none => FloatOps.inf
  | some par =>
    if n.visits = 0 then FloatOps.inf
    else
      let exploitation : F := FloatOps.div n.wins (FloatOps.ofInt n.visits)
      let exploitation : F :=
        if n.player = Player.OPP then FloatOps.neg exploitation else exploitation
      let exploration : F :=
        FloatOps.toFloat
          (FloatOps.mul FloatOps.lit141
            (FloatOps.sqrt
              (FloatOps.div (FloatOps.log (FloatOps.ofInt par.visits)) (FloatOps.ofInt n.visits))))
      FloatOps.add exploitation exploration

end Node

/-- The scan of `std::max_element` after its first element: `largest` is the index
and value of the best element so far, `first` the index of the next one. -/
def maxElementFrom {α : Type} (comp : α → α → Bool) (largest : Nat × α) (first : Nat) :
    List α → Nat × α
  | [] => largest
  | b :: rest =>
    maxElementFrom comp (if comp largest.2 b then (first, b) else largest) (first + 1) rest

/-- `std::max_element(begin, end, comp)`: index and value of the selected element,
`none` for an empty range (the returned iterator is `end`). -/
def maxElement {α : Type} (comp : α → α → Bool) : List α → Option (Nat × α)
  | [] => none
  | a :: rest => some (maxElementFrom comp (0, a) 1 rest)


/-- `MCTS::selection` started at a node: the child indices followed down to a node
without children (the loop runs while `children.size() > 0`, that is while
`max_element` has an element to return). The comparator reads each child's
UCB1 with the current node as its parent. -/
def selectionFrom {F : Type} [FloatOps F] (node : Node F) : List Nat :=
  match h : maxElement
      (fun a b => FloatOps.lt (Node.getUCB1 (some node) a) (Node.getUCB1 (some node) b))
      node.children with
  | none => []
  | some r => r.1 :: selectionFrom r.2
termination_by sizeOf node
decreasing_by
  have key : ∀ (comp : Node F → Node F → Bool) (rest : List (Node F)) (largest : Nat × Node F)
      (first : Nat), (maxElementFrom comp largest first rest).2 = largest.2 ∨
        (maxElementFrom comp largest first rest).2 ∈ rest := by
    intro comp rest
    induction rest with
    | nil => intro largest first; exact Or.inl rfl
    | cons b rest ih =>
      intro largest first
      rcases ih (if comp largest.2 b then (first, b) else largest) (first + 1) with h1 | h1
      · by_cases hc : comp largest.2 b = true
        · right
          simp only [maxElementFrom, hc, if_true] at h1 ⊢
          rw [h1]; exact List.mem_cons_self _ _
        · left
          simp only [maxElementFrom, hc] at h1 ⊢
          exact h1
      · right
        exact List.mem_cons_of_mem _ h1
  cases node with
  | mk m s p c w v =>
    simp only [Node.children] at h
    have hmem : r.2 ∈ c := by
      cases c with
      | nil => simp [maxElement] at h
      | cons a rest =>
        simp only [maxElement, Option.some.injEq] at h
        subst h
        rcases key _ rest (0, a) 1 with h1 | h1
        · rw [h1]; exact List.mem_cons_self _ _
        · exact List.mem_cons_of_mem _ h1
    have := List.sizeOf_lt_of_mem hmem
    simp only [Node.mk.sizeOf_spec]
    omega

/-- The struct `MCTS`. -/
structure MCTS (F : Type) where
  root : Node F

/-- The constructor `MCTS(initialState)`: the root carries the sentinel move
`{-1, -1}`, the player `OPP` and a null parent. -/
def MCTS.new {F : Type} [FloatOps F] (initialState : Game) : MCTS F :=
  ⟨Node.new initialState ⟨-1, -1⟩ Player.OPP⟩

/-- `MCTS::selection`: the path from the root to the selected node. -/
def MCTS.selection {F : Type} [FloatOps F] (m : MCTS F) : List Nat :=
  selectionFrom m.root

/-- The `for` loop of `MCTS::expantion`: one child pushed per legal move of the
node's board, each with the node's board after `applyMove(possibleMove, player)`. -/
def expandChildren {F : Type} [FloatOps F] (n : Node F) (player : Player) : List (Node F) :=
  n.state.possibleMoves.foldl
    (fun children possibleMove =>
      children ++ [Node.mk possibleMove (n.state.applyMove possibleMove player).2 player []
        (FloatOps.ofInt 0) 0])
    n.children

/-- `MCTS::expantion(node)`: the tree after the call and the path of the returned
node. A path that leaves the tree stands for an invalid pointer and an empty
`max_element` range for a dereferenced `end()`; both leave the tree as it is. -/
def MCTS.expantion {F : Type} [FloatOps F] (m : MCTS F) (node : List Nat) :
    MCTS F × List Nat :=
  match m.root.getAt node with
  | none => (m, node)
  | some n =>
    if n.visits = 0 ∨ n.state.isTerminal = true then (m, node)
    else
      let player := if n.player = Player.OPP then Player.BOT else Player.OPP
      let expanded : Node F :=
        Node.mk n.move n.state n.player (expandChildren n player) n.wins n.visits
      let root := Node.modifyAt (fun _ => expanded) node m.root
      match maxElement
          (fun a b =>
            FloatOps.lt (Node.getUCB1 (some expanded) a) (Node.getUCB1 (some expanded) b))
          expanded.children with
      | none => (⟨root⟩, node)
      | some r => (⟨root⟩, node ++ [r.1])

/-- The `while` loop of `MCTS::rollout`: the final board and the rest of the random
stream. `rand()` is the head of the stream. -/
def rolloutLoop (state : Game) (player : Player) (rnd : Nat → Nat) : Game × (Nat → Nat) :=
  if h : state.isTerminal = true then (state, rnd)
  else
    rolloutLoop
      (state.applyMove
        (state.possibleMoves.getD (rnd 0 % state.possibleMoves.length) default) player).2
      (if player = Player.OPP then Player.BOT else Player.OPP)
      (fun i => rnd (i + 1))
termination_by state.possibleMoves.length
decreasing_by
  have hne : state.possibleMoves ≠ [] := by
    intro he
    apply h
    simp [Game.isTerminal, he]
  have hpos : 0 < state.possibleMoves.length := List.length_pos.mpr hne
  have hlt : rnd 0 % state.possibleMoves.length < state.possibleMoves.length :=
    Nat.mod_lt _ hpos
  have hmem : state.possibleMoves.getD (rnd 0 % state.possibleMoves.length) default
      ∈ state.possibleMoves := by
    rw [List.getD_eq_getElem _ _ hlt]
    exact List.getElem_mem _
  generalize state.possibleMoves.getD (rnd 0 % state.possibleMoves.length) default = mv at hmem
  unfold Game.applyMove
  cases hf : state.possibleMoves.find? (fun p => p == mv) with
  | none =>
    rw [List.find?_eq_none] at hf
    exact absurd (by simp) (hf mv hmem)
  | some it =>
    have h2 := List.mem_of_find?_eq_some hf
    simp only [List.length_erase_of_mem h2]
    omega

/-- `MCTS::rollout(node)`: the outcome and the rest of the random stream. -/
def MCTS.rollout {F : Type} [FloatOps F] (node : Node F) (rnd : Nat → Nat) :
    F × (Nat → Nat) :=
  let final := rolloutLoop node.state node.player rnd
  let winner := final.1.getWinner
  if winner = Player.OPP then (FloatOps.ofInt (-1), final.2)
  else if winner = Player.BOT then (FloatOps.ofInt 1, final.2)
  else (FloatOps.ofInt 0, final.2)

/-- The body of the loop of `MCTS::backprob` on one node. -/
def Node.addVisit {F : Type} [FloatOps F] (wins : F) : Node F → Node F
  | Node.mk m s p c w v => Node.mk m s p c (FloatOps.add w wins) (v + 1)

/-- The step `node = node->parent`: the root has a null parent. -/
def parentPath : List Nat → Option (List Nat)
  | [] => none
  | i :: rest => some (i :: rest).dropLast

/-- `MCTS::backprob(node, wins)`; `none` is the null pointer that ends the loop. -/
def MCTS.backprob {F : Type} [FloatOps F] (m : MCTS F) (node : Option (List Nat)) (wins : F) :
    MCTS F :=
  match node with
  | none => m
  | some path =>
    MCTS.backprob ⟨Node.modifyAt (Node.addVisit wins) path m.root⟩ (parentPath path) wins
termination_by (match node with | none => 0 | some path => path.length + 1)
decreasing_by
  cases path with
  | nil => simp [parentPath]
  | cons i rest => simp [parentPath]

/-- One pass of the body of the `while` loop of `MCTS::getBestMove`. The rollout
reads the node `expantion` returned from the tree. -/
def MCTS.iteration {F : Type} [FloatOps F] (m : MCTS F) (rnd : Nat → Nat) :
    MCTS F × (Nat → Nat) :=
  let expanded := m.expantion m.selection
  match expanded.1.root.getAt expanded.2 with
  | none => (expanded.1, rnd)
  | some node =>
    let outcome := MCTS.rollout node rnd
    (expanded.1.backprob (some expanded.2) outcome.1, outcome.2)

/-- The `while` loop of `MCTS::getBestMove` when `stillHasTime` holds exactly
`simulations` times. -/
def MCTS.search {F : Type} [FloatOps F] (m : MCTS F) (rnd : Nat → Nat) :
    Nat → MCTS F × (Nat → Nat)
  | 0 => (m, rnd)
  | simulations + 1 =>
    let next := m.iteration rnd
    MCTS.search next.1 next.2 simulations

/-- The `return` of `MCTS::getBestMove`: the move of the `max_element` of the
root's children under `a.visits < b.visits`; `none` when the range is empty and
the source dereferences `end()`. -/
def MCTS.reportBest {F : Type} (m : MCTS F) : Option Point :=
  match maxElement (fun a b => decide (a.visits < b.visits)) m.root.children with
  | none => none
  | some r => some r.2.move

/-- `MCTS::getBestMove` with the clock replaced by the number of passes. -/
def MCTS.getBestMove {F : Type} [FloatOps F] (m : MCTS F) (rnd : Nat → Nat)
    (simulations : Nat) : Option Point :=
  (m.search rnd simulations).1.reportBest


/-! ## Turn driver -/

/-- The loop of `main`, listing the boards handed to the `MCTS` constructor.
`inputs` are the coordinates parsed by `readUserInput` in the order typed (a
rejected one is prompted for again), `replies` the values returned by the
successive `getBestMove` calls. The list ends when the board is terminal at the
loop test or the input runs out. -/
def mainLoop : Game → List Point → List Point → List Game
  | _, [], _ => []
  | game, input :: inputs, replies =>
    if game.isTerminal = true then []
    else
      let read := game.applyMove input Player.OPP
      if read.1 = false then mainLoop game inputs replies
      else
        match replies with
        | [] => [read.2]
        | move :: replies => read.2 :: mainLoop (read.2.applyMove move Player.BOT).2 inputs replies

/-! ## A computable arithmetic for concrete evaluation -/

/-- Fixed-point numbers in thousandths with `none` as `+infinity`: a computable
stand-in used only to evaluate the definitions on concrete trees. -/
structure Fixed where
  val : Option Int
  deriving DecidableEq, Repr

instance : FloatOps Fixed where
  inf := ⟨none⟩
  ofInt n := ⟨some (n * 1000)⟩
  lit141 := ⟨some 1410⟩
  add a b := ⟨match a.val, b.val with
    | some x, some y => some (x + y)
    | _, _ => none⟩
  mul a b := ⟨match a.val, b.val with
    | some x, some y => some (x * y / 1000)
    | _, _ => none⟩
  div a b := ⟨match a.val, b.val with
    | some x, some y => if y = 0 then none else some (x * 1000 / y)
    | _, _ => none⟩
  neg a := ⟨a.val.map (fun x => -x)⟩
  sqrt a := ⟨a.val.map (fun x => (Nat.sqrt (x.toNat * 1000) : Int))⟩
  log a := ⟨a.val.map (fun x => (Nat.log 2 (x / 1000).toNat : Int) * 693)⟩
  toFloat a := a
  lt a b := match a.val, b.val with
    | some x, some y => decide (x < y)
    | some _, none => true
    | none, _ => false
  lt_irrefl a := by
    cases a with
    | mk v => cases v <;> simp

/-- The constant stream of random values `0`. -/
def zeroStream : Nat → Nat := fun _ => 0


/-! ## Concrete inputs -/

/-- A root whose four children have the visit counts 3, 5, 5, 2. -/
def tieTree : MCTS Fixed :=
  ⟨Node.mk ⟨-1, -1⟩ {} Player.OPP
    [Node.mk ⟨0, 0⟩ {} Player.BOT [] ⟨some 1000⟩ 3,
     Node.mk ⟨0, 1⟩ {} Player.BOT [] ⟨some 2000⟩ 5,
     Node.mk ⟨0, 2⟩ {} Player.BOT [] ⟨some (-1000)⟩ 5,
     Node.mk ⟨1, 0⟩ {} Player.BOT [] ⟨some 0⟩ 2]
    ⟨some 2000⟩ 15⟩

/-- The human's five moves of a drawn game, as `Point{x, y}`: the typed lines are
`1,1`, `0,1`, `1,0`, `0,2`, `2,2` (row, column). -/
def drawInputs : List Point := [⟨1, 1⟩, ⟨1, 0⟩, ⟨0, 1⟩, ⟨2, 0⟩, ⟨2, 2⟩]

/-- The engine's four answers in that game; each of the last three blocks the
human's open line. -/
def drawReplies : List Point := [⟨0, 0⟩, ⟨1, 2⟩, ⟨2, 1⟩, ⟨0, 2⟩]

/-- The board after the human's fifth move of that game: full, no winner. -/
def drawBoard : Game :=
  ⟨[[Player.BOT, Player.OPP, Player.OPP],
    [Player.OPP, Player.OPP, Player.BOT],
    [Player.BOT, Player.BOT, Player.OPP]], []⟩

/-! ## Vocabulary of the engine claims -/

/-- The expression `player == OPP ? BOT : OPP` of `expantion` and `rollout`. -/
def otherPlayer (player : Player) : Player :=
  if player = Player.OPP then Player.BOT else Player.OPP

/-- The coordinate `possibleMoves[rand() % possibleMoves.size()]` of one ply of the
rollout. -/
def rolloutMove (state : Game) (rnd : Nat → Nat) : Point :=
  state.possibleMoves.getD (rnd 0 % state.possibleMoves.length) default

/-- One pass of the `while` loop of `MCTS::rollout`: the board before the call of
`applyMove`, and the player and coordinate passed to it. -/
structure Ply where
  board : Game
  player : Player
  move : Point
  deriving DecidableEq, Repr

/-- The passes of the `while` loop of `MCTS::rollout`, in order: the same loop as
`rolloutLoop`, recording each call of `applyMove` instead of the final board. -/
def rolloutPlies (state : Game) (player : Player) (rnd : Nat → Nat) : List Ply :=
  if h : state.isTerminal = true then []
  else
    ⟨state, player, rolloutMove state rnd⟩ ::
      rolloutPlies (state.applyMove (rolloutMove state rnd) player).2 (otherPlayer player)
        (fun i => rnd (i + 1))
termination_by state.possibleMoves.length
decreasing_by
  have hne : state.possibleMoves ≠ [] := by
    intro he
    apply h
    simp [Game.isTerminal, he]
  have hpos : 0 < state.possibleMoves.length := List.length_pos.mpr hne
  have hlt : rnd 0 % state.possibleMoves.length < state.possibleMoves.length :=
    Nat.mod_lt _ hpos
  have hmem : rolloutMove state rnd ∈ state.possibleMoves := by
    unfold rolloutMove
    rw [List.getD_eq_getElem _ _ hlt]
    exact List.getElem_mem _
  generalize rolloutMove state rnd = mv at hmem
  unfold Game.applyMove
  cases hf : state.possibleMoves.find? (fun p => p == mv) with
  | none =>
    rw [List.find?_eq_none] at hf
    exact absurd (by simp) (hf mv hmem)
  | some it =>
    have h2 := List.mem_of_find?_eq_some hf
    simp only [List.length_erase_of_mem h2]
    omega

/-- The board after the last recorded pass, or the starting board when no pass was
made. -/
def boardAfter (start : Game) (plies : List Ply) : Game :=
  match plies.getLast? with
  | none => start
  | some last => (last.board.applyMove last.move last.player).2

/-- A node, recorded for `OPP`, whose board has the single legal move `{2, 2}` left
and no winner. -/
def lastMoveNode : Node Fixed :=
  Node.mk ⟨1, 2⟩
    ⟨[[Player.BOT, Player.OPP, Player.OPP],
      [Player.OPP, Player.OPP, Player.BOT],
      [Player.BOT, Player.BOT, Player.EMPTY]], [⟨2, 2⟩]⟩
    Player.OPP [] ⟨some 0⟩ 1

/-- The update `backprob` amounts to, as one descent from the root: the body of its
loop applied to every node on the path. -/
def Node.bumpAlong {F : Type} [FloatOps F] (wins : F) : List Nat → Node F → Node F
  | [], n => Node.addVisit wins n
  | i :: rest, Node.mk m s p ch w v =>
    Node.mk m s p (ch.modify (Node.bumpAlong wins rest) i) (FloatOps.add w wins) (v + 1)

/-- The child `expantion` pushes for one legal move of a node: `Node{node->state,
possibleMove, player, node}` followed by `child.state.applyMove(possibleMove,
player)`, with `player` the other player than the node's. -/
def freshChild {F : Type} [FloatOps F] (n : Node F) (possibleMove : Point) : Node F :=
  Node.mk possibleMove (n.state.applyMove possibleMove (otherPlayer n.player)).2
    (otherPlayer n.player) [] (FloatOps.ofInt 0) 0

/-- The node `expantion` leaves in place of an expanded leaf. -/
def expandedNode {F : Type} [FloatOps F] (n : Node F) : Node F :=
  Node.mk n.move n.state n.player (n.state.possibleMoves.map (freshChild n)) n.wins n.visits

/-- A tree after the first pass on the initial board: the root visited once, not
yet expanded. -/
def visitedRoot : MCTS Fixed :=
  ⟨Node.mk ⟨-1, -1⟩ {} Player.OPP [] ⟨some 0⟩ 1⟩

/-! ## Reference winner scan -/

/-- The occupant of a line when its three cells are equal and not `EMPTY`. -/
def Game.occupantIfComplete (g : Game) (line : List (Nat × Nat)) : Option Player :=
  match line with
  | [(r1, c1), (r2, c2), (r3, c3)] =>
    if g.cell r1 c1 ≠ Player.EMPTY ∧ g.cell r1 c1 = g.cell r2 c2 ∧ g.cell r1 c1 = g.cell r3 c3
    then some (g.cell r1 c1) else none
  | _ => none

/-- The reference scan of the winner: rows 0 to 2, then columns 0 to 2, then the main
and the anti-diagonal (the order of `winLines`), returning the occupant of the
first complete line and `EMPTY` when there is none. -/
def Game.referenceWinner (g : Game) : Player :=
  (winLines.findSome? g.occupantIfComplete).getD Player.EMPTY

/-! ## Real arithmetic -/

/-- The real numbers with `+infinity` (`none`) added: the arithmetic over which the
UCB1 formula is stated. -/
structure RealInf where
  val : Option ℝ

noncomputable instance : FloatOps RealInf where
  inf := ⟨none⟩
  ofInt n := ⟨some (n : ℝ)⟩
  lit141 := ⟨some (141 / 100)⟩
  add a b := ⟨match a.val, b.val with
    | some x, some y => some (x + y)
    | _, _ => none⟩
  mul a b := ⟨match a.val, b.val with
    | some x, some y => some (x * y)
    | _, _ => none⟩
  div a b := ⟨match a.val, b.val with
    | some x, some y => some (x / y)
    | _, _ => none⟩
  neg a := ⟨a.val.map (fun x => -x)⟩
  sqrt a := ⟨a.val.map Real.sqrt⟩
  log a := ⟨a.val.map Real.log⟩
  toFloat a := a
  lt a b := match a.val, b.val with
    | some x, some y => decide (x < y)
    | some _, none => true
    | none, _ => false
  lt_irrefl a := by
    cases a with
    | mk v => cases v <;> simp

/-! ## Visit counts across the tree -/

/-- The visit counts of one node and its direct children agree: a node with children
has one visit more than its children together, and a node without children on
a non-terminal board has at most one visit. -/
def Node.VisitsBalanced {F : Type} (x : Node F) : Prop :=
  (x.children ≠ [] → x.visits = 1 + (x.children.map Node.visits).sum) ∧
    (x.children = [] → x.state.isTerminal = false → x.visits ≤ 1)

/-- Every node of the tree has balanced visit counts. -/
def Node.AllBalanced {F : Type} (root : Node F) : Prop :=
  ∀ (q : List Nat) (x : Node F), root.getAt q = some x → x.VisitsBalanced

/-! ## The board: auxiliary facts -/

theorem cell_setCell (grid : List (List Player)) (h : Is3x3 grid) (x y : Int)
    (hx : 0 ≤ x ∧ x < 3) (hy : 0 ≤ y ∧ y < 3) (p : Player) (r c : Nat) (poss poss2 : List Point) :
    Game.cell ⟨setCell grid y x p, poss⟩ r c
      = if r = y.toNat ∧ c = x.toNat then p else Game.cell ⟨grid, poss2⟩ r c := by
  obtain ⟨hlen, hrows⟩ := h
  have hyn : y.toNat < grid.length := by omega
  simp only [Game.cell, setCell, hx.1, hy.1, and_self, if_true]
  by_cases hr : r = y.toNat
  · subst hr
    have hrow : (grid.getD y.toNat []).length = 3 := by
      apply hrows
      rw [List.getD_eq_getElem _ _ hyn]
      exact List.getElem_mem _
    rw [List.getD_eq_getElem _ _ hyn] at hrow
    by_cases hc : c = x.toNat
    · subst hc
      have hxn : x.toNat < (grid[y.toNat]).length := by omega
      simp [List.getD_eq_getElem?_getD, List.getElem?_set, hyn, hxn]
    · simp [List.getD_eq_getElem?_getD, List.getElem?_set, hyn, hc, Ne.symm hc]
  · simp [List.getD_eq_getElem?_getD, List.getElem?_set, hr, Ne.symm hr]

theorem is3x3_setCell (grid : List (List Player)) (h : Is3x3 grid) (x y : Int) (p : Player) :
    Is3x3 (setCell grid y x p) := by
  obtain ⟨hlen, hrows⟩ := h
  unfold setCell
  split
  · refine ⟨by simpa using hlen, ?_⟩
    intro row hrow
    by_cases hy : y.toNat < grid.length
    · rcases List.mem_or_eq_of_mem_set hrow with h1 | h1
      · exact hrows row h1
      · subst h1
        simp only [List.length_set]
        apply hrows
        rw [List.getD_eq_getElem _ _ hy]
        exact List.getElem_mem _
    · rw [List.set_eq_of_length_le (by omega)] at hrow
      exact hrows row hrow
  · exact ⟨hlen, hrows⟩

theorem mem_allPoints (p : Point) : p ∈ allPoints ↔ p.inGrid := by
  obtain ⟨x, y⟩ := p
  simp only [allPoints, Point.inGrid, List.mem_cons, Point.mk.injEq, List.mem_singleton, List.mem_nil_iff, or_false]
  constructor
  · intro h; omega
  · intro h
    have hx : x = 0 ∨ x = 1 ∨ x = 2 := by omega
    have hy : y = 0 ∨ y = 1 ∨ y = 2 := by omega
    rcases hx with rfl | rfl | rfl <;> rcases hy with rfl | rfl | rfl <;> simp

theorem applyMove_of_mem (g : Game) (pos : Point) (pl : Player) (h : pos ∈ g.possibleMoves) :
    g.applyMove pos pl = (true, ⟨setCell g.grid pos.y pos.x pl, g.possibleMoves.erase pos⟩) := by
  unfold Game.applyMove
  cases hf : g.possibleMoves.find? (fun p => p == pos) with
  | none =>
    rw [List.find?_eq_none] at hf
    exact absurd (by simp) (hf pos h)
  | some it =>
    have := List.find?_some hf
    simp only [beq_iff_eq] at this
    subst this
    rfl

theorem applyMove_of_not_mem (g : Game) (pos : Point) (pl : Player) (h : pos ∉ g.possibleMoves) :
    g.applyMove pos pl = (false, g) := by
  unfold Game.applyMove
  cases hf : g.possibleMoves.find? (fun p => p == pos) with
  | none => rfl
  | some it =>
    have h1 := List.find?_some hf
    have h2 := List.mem_of_find?_eq_some hf
    simp only [beq_iff_eq] at h1
    subst h1
    exact absurd h2 h


theorem cellAt_setCell (grid : List (List Player)) (h : Is3x3 grid) (pos q : Point)
    (hpos : pos.inGrid) (hq : q.inGrid) (pl : Player) (m m2 : List Point) :
    Game.cellAt ⟨setCell grid pos.y pos.x pl, m⟩ q
      = if q = pos then pl else Game.cellAt ⟨grid, m2⟩ q := by
  unfold Game.cellAt
  rw [cell_setCell grid h pos.x pos.y ⟨hpos.1, hpos.2.1⟩ ⟨hpos.2.2.1, hpos.2.2.2⟩ pl _ _ m m2]
  obtain ⟨px, py⟩ := pos
  obtain ⟨qx, qy⟩ := q
  simp only [Point.inGrid] at hpos hq
  simp only [Point.mk.injEq]
  have e : (qy.toNat = py.toNat ∧ qx.toNat = px.toNat) ↔ (qx = px ∧ qy = py) := by
    constructor <;> intro h <;> omega
  simp only [e]

theorem cellAt_applyMove (g : Game) (pos q : Point) (pl : Player) (h : Is3x3 g.grid)
    (hmem : pos ∈ g.possibleMoves) (hpos : pos.inGrid) (hq : q.inGrid) :
    (g.applyMove pos pl).2.cellAt q = if q = pos then pl else g.cellAt q := by
  rw [applyMove_of_mem g pos pl hmem]
  exact cellAt_setCell g.grid h pos q hpos hq pl _ g.possibleMoves

theorem countP_bump {α : Type} [DecidableEq α] (f f2 : α → Bool) (a : α) :
    ∀ (l : List α), l.Nodup → a ∈ l → (∀ b ∈ l, b ≠ a → f2 b = f b) → f a = false → f2 a = true →
      l.countP f2 = l.countP f + 1
  | [], _, hmem, _, _, _ => by simp at hmem
  | b :: l, hnd, hmem, hoff, hfa, hf2a => by
    rw [List.nodup_cons] at hnd
    by_cases hb : b = a
    · subst hb
      have hrest : l.countP f2 = l.countP f := by
        apply List.countP_congr
        intro c hc
        have : c ≠ b := fun e => hnd.1 (e ▸ hc)
        rw [hoff c (List.mem_cons_of_mem _ hc) this]
      simp [List.countP_cons, hfa, hf2a, hrest]
    · have hmem2 : a ∈ l := by
        rcases List.mem_cons.mp hmem with e | e
        · exact absurd e.symm hb
        · exact e
      have ih := countP_bump f f2 a l hnd.2 hmem2
        (fun c hc => hoff c (List.mem_cons_of_mem _ hc)) hfa hf2a
      simp only [List.countP_cons, ih, hoff b (List.mem_cons_self _ _) hb]
      omega

theorem occupied_setCell (grid : List (List Player)) (h : Is3x3 grid) (pos : Point)
    (hpos : pos.inGrid) (pl : Player) (hpl : pl ≠ Player.EMPTY) (m m2 : List Point)
    (hempty : Game.cellAt ⟨grid, m2⟩ pos = Player.EMPTY) :
    Game.occupied ⟨setCell grid pos.y pos.x pl, m⟩ = Game.occupied ⟨grid, m2⟩ + 1 := by
  unfold Game.occupied
  apply countP_bump _ _ pos allPoints (by decide) ((mem_allPoints pos).mpr hpos)
  · intro b hb hne
    rw [cellAt_setCell grid h pos b hpos ((mem_allPoints b).mp hb) pl m m2, if_neg hne]
  · simp [hempty]
  · rw [cellAt_setCell grid h pos pos hpos hpos pl m m2]
    simp [hpl]

theorem boardInv_initial : BoardInv ({} : Game) where
  shape := by decide
  nodup := by decide
  legal_iff := by
    intro p
    have h := mem_allPoints p
    constructor
    · intro hp
      have hin : p.inGrid := h.mp hp
      refine ⟨hin, ?_⟩
      have : p ∈ allPoints := hp
      simp only [allPoints, List.mem_cons, List.mem_singleton, List.mem_nil_iff, or_false] at this
      rcases this with rfl | rfl | rfl | rfl | rfl | rfl | rfl | rfl | rfl <;> rfl
    · intro hp
      exact h.mpr hp.1
  count := by decide

theorem boardInv_applyMove (g : Game) (hg : BoardInv g) (pos : Point) (pl : Player)
    (hpl : pl ≠ Player.EMPTY) : BoardInv (g.applyMove pos pl).2 := by
  by_cases hmem : pos ∈ g.possibleMoves
  · rw [applyMove_of_mem g pos pl hmem]
    have hin : pos.inGrid := ((hg.legal_iff pos).mp hmem).1
    have hemp : g.cellAt pos = Player.EMPTY := ((hg.legal_iff pos).mp hmem).2
    refine ⟨is3x3_setCell _ hg.shape _ _ _, hg.nodup.erase _, ?_, ?_⟩
    · intro q
      simp only
      rw [hg.nodup.mem_erase_iff]
      constructor
      · rintro ⟨hne, hq⟩
        have hq2 := (hg.legal_iff q).mp hq
        refine ⟨hq2.1, ?_⟩
        rw [cellAt_setCell g.grid hg.shape pos q hin hq2.1 pl _ g.possibleMoves, if_neg hne]
        exact hq2.2
      · rintro ⟨hqin, hqc⟩
        rw [cellAt_setCell g.grid hg.shape pos q hin hqin pl _ g.possibleMoves] at hqc
        by_cases hne : q = pos
        · rw [if_pos hne] at hqc
          exact absurd hqc hpl
        · rw [if_neg hne] at hqc
          exact ⟨hne, (hg.legal_iff q).mpr ⟨hqin, hqc⟩⟩
    · simp only
      rw [occupied_setCell g.grid hg.shape pos hin pl hpl _ g.possibleMoves hemp,
        List.length_erase_of_mem hmem]
      have hc : Game.occupied ⟨g.grid, g.possibleMoves⟩ + g.possibleMoves.length = 9 := hg.count
      have hpos : 0 < g.possibleMoves.length := List.length_pos_of_mem hmem
      omega
  · rw [applyMove_of_not_mem g pos pl hmem]
    exact hg

theorem boardInv_applyMoves (calls : List (Point × Player)) :
    ∀ (g : Game), BoardInv g → (∀ c ∈ calls, c.2 = Player.BOT ∨ c.2 = Player.OPP) →
      BoardInv (applyMoves g calls) := by
  induction calls with
  | nil => intro g hg _; exact hg
  | cons c rest ih =>
    intro g hg hpl
    obtain ⟨pos, pl⟩ := c
    have hne : pl ≠ Player.EMPTY := by
      rcases hpl (pos, pl) (List.mem_cons_self _ _) with h | h <;> simp at h <;> simp [h]
    exact ih _ (boardInv_applyMove g hg pos pl hne)
      (fun c hc => hpl c (List.mem_cons_of_mem _ hc))


theorem lineOwner_eq_some (a b c w : Player) :
    lineOwner a b c = some w ↔ (w ≠ Player.EMPTY ∧ a = w ∧ b = w ∧ c = w) := by
  cases a <;> cases b <;> cases c <;> cases w <;> simp [lineOwner]

theorem lineOwner_eq_none (a b c : Player) :
    lineOwner a b c = none ↔ ∀ w, w ≠ Player.EMPTY → ¬ (a = w ∧ b = w ∧ c = w) := by
  constructor
  · intro h w hw hl
    have := (lineOwner_eq_some a b c w).mpr ⟨hw, hl⟩
    rw [h] at this
    exact Option.noConfusion this
  · intro h
    cases hl : lineOwner a b c with
    | none => rfl
    | some w =>
      have := (lineOwner_eq_some a b c w).mp hl
      exact absurd this.2 (h w this.1)

theorem ite_lineOwner (a b c : Player) (k : Option Player) :
    (if a ≠ Player.EMPTY ∧ a = b ∧ a = c then
        some (if a = Player.BOT then Player.BOT else Player.OPP) else k)
      = (lineOwner a b c).orElse (fun _ => k) := by
  unfold lineOwner
  split <;> rfl

theorem ite_lineOwner_getD (a b c : Player) (k : Player) :
    (if a ≠ Player.EMPTY ∧ a = b ∧ a = c then
        (if a = Player.BOT then Player.BOT else Player.OPP) else k)
      = ((lineOwner a b c).orElse (fun _ => some k)).getD Player.EMPTY := by
  unfold lineOwner
  split <;> rfl

theorem getWinner_eq_findSome (g : Game) :
    g.getWinner = (g.scanOrder.findSome? (fun t => lineOwner t.1 t.2.1 t.2.2)).getD Player.EMPTY := by
  simp only [Game.getWinner, Game.getWinnerLoop, Game.scanOrder, List.findSome?,
    ite_lineOwner, ite_lineOwner_getD]
  generalize lineOwner (g.cell 0 0) (g.cell 0 1) (g.cell 0 2) = o1
  generalize lineOwner (g.cell 0 0) (g.cell 1 0) (g.cell 2 0) = o2
  generalize lineOwner (g.cell 1 0) (g.cell 1 1) (g.cell 1 2) = o3
  generalize lineOwner (g.cell 0 1) (g.cell 1 1) (g.cell 2 1) = o4
  generalize lineOwner (g.cell 2 0) (g.cell 2 1) (g.cell 2 2) = o5
  generalize lineOwner (g.cell 0 2) (g.cell 1 2) (g.cell 2 2) = o6
  generalize lineOwner (g.cell 0 0) (g.cell 1 1) (g.cell 2 2) = o7
  generalize lineOwner (g.cell 0 2) (g.cell 1 1) (g.cell 2 0) = o8
  cases o1 <;> try rfl
  cases o2 <;> try rfl
  cases o3 <;> try rfl
  cases o4 <;> try rfl
  cases o5 <;> try rfl
  cases o6 <;> try rfl
  cases o7 <;> try rfl
  cases o8 <;> rfl

theorem scanOrder_line (g : Game) (t : Player × Player × Player) (ht : t ∈ g.scanOrder) :
    ∃ line ∈ winLines, ∀ w, (t.1 = w ∧ t.2.1 = w ∧ t.2.2 = w) ↔ g.lineFilledBy line w := by
  simp only [Game.scanOrder, List.mem_cons, List.mem_singleton, List.mem_nil_iff, or_false] at ht
  rcases ht with rfl | rfl | rfl | rfl | rfl | rfl | rfl | rfl
  · exact ⟨[(0, 0), (0, 1), (0, 2)], by simp [winLines], by simp [Game.lineFilledBy]⟩
  · exact ⟨[(0, 0), (1, 0), (2, 0)], by simp [winLines], by simp [Game.lineFilledBy]⟩
  · exact ⟨[(1, 0), (1, 1), (1, 2)], by simp [winLines], by simp [Game.lineFilledBy]⟩
  · exact ⟨[(0, 1), (1, 1), (2, 1)], by simp [winLines], by simp [Game.lineFilledBy]⟩
  · exact ⟨[(2, 0), (2, 1), (2, 2)], by simp [winLines], by simp [Game.lineFilledBy]⟩
  · exact ⟨[(0, 2), (1, 2), (2, 2)], by simp [winLines], by simp [Game.lineFilledBy]⟩
  · exact ⟨[(0, 0), (1, 1), (2, 2)], by simp [winLines], by simp [Game.lineFilledBy]⟩
  · exact ⟨[(0, 2), (1, 1), (2, 0)], by simp [winLines], by simp [Game.lineFilledBy]⟩

theorem winLines_scanOrder (g : Game) (line : List (Nat × Nat)) (hl : line ∈ winLines) :
    ∃ t ∈ g.scanOrder, ∀ w, (t.1 = w ∧ t.2.1 = w ∧ t.2.2 = w) ↔ g.lineFilledBy line w := by
  simp only [winLines, List.mem_cons, List.mem_singleton, List.mem_nil_iff, or_false] at hl
  rcases hl with rfl | rfl | rfl | rfl | rfl | rfl | rfl | rfl
  · exact ⟨(g.cell 0 0, g.cell 0 1, g.cell 0 2), by simp [Game.scanOrder], by simp [Game.lineFilledBy]⟩
  · exact ⟨(g.cell 1 0, g.cell 1 1, g.cell 1 2), by simp [Game.scanOrder], by simp [Game.lineFilledBy]⟩
  · exact ⟨(g.cell 2 0, g.cell 2 1, g.cell 2 2), by simp [Game.scanOrder], by simp [Game.lineFilledBy]⟩
  · exact ⟨(g.cell 0 0, g.cell 1 0, g.cell 2 0), by simp [Game.scanOrder], by simp [Game.lineFilledBy]⟩
  · exact ⟨(g.cell 0 1, g.cell 1 1, g.cell 2 1), by simp [Game.scanOrder], by simp [Game.lineFilledBy]⟩
  · exact ⟨(g.cell 0 2, g.cell 1 2, g.cell 2 2), by simp [Game.scanOrder], by simp [Game.lineFilledBy]⟩
  · exact ⟨(g.cell 0 0, g.cell 1 1, g.cell 2 2), by simp [Game.scanOrder], by simp [Game.lineFilledBy]⟩
  · exact ⟨(g.cell 0 2, g.cell 1 1, g.cell 2 0), by simp [Game.scanOrder], by simp [Game.lineFilledBy]⟩

/-- The player `getWinner` returns, when not `EMPTY`, fills one of the eight lines. -/
theorem getWinner_fills_line (g : Game) (w : Player) (hw : g.getWinner = w)
    (hne : w ≠ Player.EMPTY) : ∃ line ∈ winLines, g.lineFilledBy line w := by
  rw [getWinner_eq_findSome] at hw
  cases hf : g.scanOrder.findSome? (fun t => lineOwner t.1 t.2.1 t.2.2) with
  | none => rw [hf] at hw; exact absurd hw.symm hne
  | some v =>
    rw [hf] at hw
    simp only [Option.getD_some] at hw
    subst hw
    obtain ⟨t, ht, hlo⟩ := List.exists_of_findSome?_eq_some hf
    obtain ⟨line, hline, hiff⟩ := scanOrder_line g t ht
    exact ⟨line, hline, (hiff v).mp ((lineOwner_eq_some _ _ _ _).mp hlo).2⟩

/-- When `getWinner` returns `EMPTY`, no line is filled by a player. -/
theorem getWinner_empty_no_line (g : Game) (hw : g.getWinner = Player.EMPTY)
    (line : List (Nat × Nat)) (hline : line ∈ winLines) (p : Player) (hp : p ≠ Player.EMPTY) :
    ¬ g.lineFilledBy line p := by
  intro hfill
  rw [getWinner_eq_findSome] at hw
  obtain ⟨t, ht, hiff⟩ := winLines_scanOrder g line hline
  have hlo : lineOwner t.1 t.2.1 t.2.2 = some p :=
    (lineOwner_eq_some _ _ _ _).mpr ⟨hp, (hiff p).mpr hfill⟩
  cases hf : g.scanOrder.findSome? (fun t => lineOwner t.1 t.2.1 t.2.2) with
  | none =>
    rw [List.findSome?_eq_none_iff] at hf
    have := hf t ht
    rw [hlo] at this
    exact Option.noConfusion this
  | some v =>
    rw [hf] at hw
    simp only [Option.getD_some] at hw
    subst hw
    obtain ⟨t2, _, hlo2⟩ := List.exists_of_findSome?_eq_some hf
    exact ((lineOwner_eq_some _ _ _ _).mp hlo2).1 rfl

/-! ## The reference scan: auxiliary facts -/

theorem lineOwner_eq_occupant (a b c : Player) :
    lineOwner a b c
      = if a ≠ Player.EMPTY ∧ a = b ∧ a = c then some a else none := by
  cases a <;> cases b <;> cases c <;> simp [lineOwner]

theorem lineOwner_cross (a1 b1 c1 a2 b2 c2 p q : Player)
    (hshared : a1 = a2 ∨ a1 = b2 ∨ a1 = c2 ∨ b1 = a2 ∨ b1 = b2 ∨ b1 = c2 ∨
      c1 = a2 ∨ c1 = b2 ∨ c1 = c2)
    (h1 : lineOwner a1 b1 c1 = some p) (h2 : lineOwner a2 b2 c2 = some q) : p = q := by
  obtain ⟨_, ha1, hb1, hc1⟩ := (lineOwner_eq_some _ _ _ _).mp h1
  obtain ⟨_, ha2, hb2, hc2⟩ := (lineOwner_eq_some _ _ _ _).mp h2
  subst ha1 hb1 hc1 ha2 hb2 hc2
  rcases hshared with h | h | h | h | h | h | h | h | h <;> exact h

theorem referenceWinner_eq (g : Game) :
    g.referenceWinner
      = ([(g.cell 0 0, g.cell 0 1, g.cell 0 2), (g.cell 1 0, g.cell 1 1, g.cell 1 2),
          (g.cell 2 0, g.cell 2 1, g.cell 2 2), (g.cell 0 0, g.cell 1 0, g.cell 2 0),
          (g.cell 0 1, g.cell 1 1, g.cell 2 1), (g.cell 0 2, g.cell 1 2, g.cell 2 2),
          (g.cell 0 0, g.cell 1 1, g.cell 2 2), (g.cell 0 2, g.cell 1 1, g.cell 2 0)].findSome?
            (fun t => lineOwner t.1 t.2.1 t.2.2)).getD Player.EMPTY := by
  simp only [Game.referenceWinner, winLines, List.findSome?, Game.occupantIfComplete,
    lineOwner_eq_occupant]

theorem getWinner_eq_referenceWinner (g : Game) : g.getWinner = g.referenceWinner := by
  rw [getWinner_eq_findSome, referenceWinner_eq]
  simp only [Game.scanOrder, List.findSome?]
  have y10 := fun p q => lineOwner_cross (g.cell 1 0) (g.cell 1 1) (g.cell 1 2)
    (g.cell 0 0) (g.cell 1 0) (g.cell 2 0) p q (by simp)
  have y20 := fun p q => lineOwner_cross (g.cell 2 0) (g.cell 2 1) (g.cell 2 2)
    (g.cell 0 0) (g.cell 1 0) (g.cell 2 0) p q (by simp)
  have y21 := fun p q => lineOwner_cross (g.cell 2 0) (g.cell 2 1) (g.cell 2 2)
    (g.cell 0 1) (g.cell 1 1) (g.cell 2 1) p q (by simp)
  generalize lineOwner (g.cell 0 0) (g.cell 0 1) (g.cell 0 2) = r0 at *
  generalize lineOwner (g.cell 1 0) (g.cell 1 1) (g.cell 1 2) = r1 at *
  generalize lineOwner (g.cell 2 0) (g.cell 2 1) (g.cell 2 2) = r2 at *
  generalize lineOwner (g.cell 0 0) (g.cell 1 0) (g.cell 2 0) = k0 at *
  generalize lineOwner (g.cell 0 1) (g.cell 1 1) (g.cell 2 1) = k1 at *
  generalize lineOwner (g.cell 0 2) (g.cell 1 2) (g.cell 2 2) = k2 at *
  generalize lineOwner (g.cell 0 0) (g.cell 1 1) (g.cell 2 2) = d1 at *
  generalize lineOwner (g.cell 0 2) (g.cell 1 1) (g.cell 2 0) = d2 at *
  cases r0 with
  | some p0 => rfl
  | none =>
    cases r1 with
    | some p1 =>
      cases k0 with
      | none => rfl
      | some q0 =>
        show q0 = p1
        exact (y10 p1 q0 rfl rfl).symm
    | none =>
      cases r2 with
      | none => rfl
      | some p2 =>
        cases k0 with
        | some q0 =>
          show q0 = p2
          exact (y20 p2 q0 rfl rfl).symm
        | none =>
          cases k1 with
          | none => rfl
          | some q1 =>
            show q1 = p2
            exact (y21 p2 q1 rfl rfl).symm

/-! ## `max_element` -/

theorem maxElementFrom_valid {α : Type} (comp : α → α → Bool) :
    ∀ (rest pre : List α) (largest : Nat × α), pre[largest.1]? = some largest.2 →
      (pre ++ rest)[(maxElementFrom comp largest pre.length rest).1]?
        = some (maxElementFrom comp largest pre.length rest).2
  | [], pre, largest, h => by simpa [maxElementFrom] using h
  | b :: rest, pre, largest, h => by
    have hlt : largest.1 < pre.length := by
      by_contra hge
      rw [List.getElem?_eq_none (by omega)] at h
      exact Option.noConfusion h
    have step := maxElementFrom_valid comp rest (pre ++ [b])
      (if comp largest.2 b then (pre.length, b) else largest)
      (by
        split
        · simp
        · rw [List.getElem?_append_left hlt]; exact h)
    simpa [maxElementFrom] using step

theorem maxElement_valid {α : Type} (comp : α → α → Bool) (l : List α) (r : Nat × α)
    (h : maxElement comp l = some r) : l[r.1]? = some r.2 := by
  cases l with
  | nil => simp [maxElement] at h
  | cons a rest =>
    simp only [maxElement, Option.some.injEq] at h
    subst h
    exact maxElementFrom_valid comp rest [a] (0, a) rfl

theorem maxElement_eq_none {α : Type} (comp : α → α → Bool) (l : List α) :
    maxElement comp l = none ↔ l = [] := by
  cases l <;> simp [maxElement]

theorem maxElementFrom_key {α : Type} (key : α → Nat) :
    ∀ (rest pre : List α) (largest : Nat × α), pre[largest.1]? = some largest.2 →
      (∀ (j : Nat) (d : α), pre[j]? = some d →
        key d ≤ key largest.2 ∧ (j < largest.1 → key d < key largest.2)) →
      ∀ (j : Nat) (d : α), (pre ++ rest)[j]? = some d →
        key d ≤ key (maxElementFrom (fun a b => decide (key a < key b)) largest
            pre.length rest).2 ∧
          (j < (maxElementFrom (fun a b => decide (key a < key b)) largest pre.length rest).1 →
            key d < key (maxElementFrom (fun a b => decide (key a < key b)) largest
              pre.length rest).2)
  | [], pre, largest, _, hmax => by simpa [maxElementFrom] using hmax
  | b :: rest, pre, largest, hval, hmax => by
    have hlt : largest.1 < pre.length := by
      by_contra hge
      rw [List.getElem?_eq_none (by omega)] at hval
      exact Option.noConfusion hval
    have step := maxElementFrom_key key rest (pre ++ [b])
      (if decide (key largest.2 < key b) then (pre.length, b) else largest)
      (by
        split
        · simp
        · rw [List.getElem?_append_left hlt]; exact hval)
      (by
        intro j d hj
        by_cases hjlt : j < pre.length
        · rw [List.getElem?_append_left hjlt] at hj
          have := hmax j d hj
          split
          · rename_i hc
            simp only [decide_eq_true_eq] at hc
            show key d ≤ key b ∧ (j < pre.length → key d < key b)
            exact ⟨by omega, fun _ => by omega⟩
          · exact this
        · have hjeq : j = pre.length := by
            by_contra hne
            rw [List.getElem?_eq_none (by simp; omega)] at hj
            exact Option.noConfusion hj
          subst hjeq
          simp at hj
          subst hj
          split
          · exact ⟨le_refl _, fun h => absurd h (lt_irrefl _)⟩
          · rename_i hc
            simp only [decide_eq_true_eq] at hc
            exact ⟨by omega, fun h => by omega⟩)
    simpa [maxElementFrom] using step

/-! ## Paths into the tree -/

section Tree

variable {F : Type}

theorem Node.eta (n : Node F) :
    Node.mk n.move n.state n.player n.children n.wins n.visits = n := by
  cases n; rfl

@[simp] theorem Node.move_mk (m : Point) (s : Game) (p : Player) (ch : List (Node F)) (w : F)
    (v : Nat) : (Node.mk m s p ch w v).move = m := rfl

@[simp] theorem Node.state_mk (m : Point) (s : Game) (p : Player) (ch : List (Node F)) (w : F)
    (v : Nat) : (Node.mk m s p ch w v).state = s := rfl

@[simp] theorem Node.player_mk (m : Point) (s : Game) (p : Player) (ch : List (Node F)) (w : F)
    (v : Nat) : (Node.mk m s p ch w v).player = p := rfl

@[simp] theorem Node.children_mk (m : Point) (s : Game) (p : Player) (ch : List (Node F))
    (w : F) (v : Nat) : (Node.mk m s p ch w v).children = ch := rfl

@[simp] theorem Node.wins_mk (m : Point) (s : Game) (p : Player) (ch : List (Node F)) (w : F)
    (v : Nat) : (Node.mk m s p ch w v).wins = w := rfl

@[simp] theorem Node.visits_mk (m : Point) (s : Game) (p : Player) (ch : List (Node F)) (w : F)
    (v : Nat) : (Node.mk m s p ch w v).visits = v := rfl

theorem Node.getAt_nil (n : Node F) : n.getAt [] = some n := by
  cases n; rfl

theorem Node.getAt_cons (n : Node F) (i : Nat) (rest : List Nat) :
    n.getAt (i :: rest) = (n.children[i]?).bind (fun c => c.getAt rest) := by
  cases n with
  | mk m s p ch w v =>
    simp only [Node.getAt, Node.children]
    generalize ch[i]? = o
    cases o <;> rfl

theorem Node.getAt_append (p q : List Nat) :
    ∀ (n : Node F), n.getAt (p ++ q) = (n.getAt p).bind (fun c => c.getAt q) := by
  induction p with
  | nil => intro n; simp [Node.getAt_nil]
  | cons i rest ih =>
    intro n
    simp only [List.cons_append, Node.getAt_cons]
    generalize n.children[i]? = o
    cases o with
    | none => rfl
    | some c => simp [ih c]

theorem Node.modifyAt_nil (f : Node F → Node F) (n : Node F) : Node.modifyAt f [] n = f n := by
  cases n; rfl

theorem Node.modifyAt_cons (f : Node F → Node F) (i : Nat) (rest : List Nat) (n : Node F) :
    Node.modifyAt f (i :: rest) n
      = Node.mk n.move n.state n.player (n.children.modify (Node.modifyAt f rest) i)
          n.wins n.visits := by
  cases n; rfl

theorem Node.getAt_modifyAt (f : Node F → Node F) (p : List Nat) :
    ∀ (root n : Node F), root.getAt p = some n →
      (Node.modifyAt f p root).getAt p = some (f n) := by
  induction p with
  | nil =>
    intro root n h
    rw [Node.getAt_nil] at h
    cases h
    rw [Node.modifyAt_nil, Node.getAt_nil]
  | cons i rest ih =>
    intro root n h
    rw [Node.getAt_cons] at h
    rw [Node.modifyAt_cons, Node.getAt_cons]
    simp only [Node.children_mk, List.getElem?_modify_eq]
    cases hc : root.children[i]? with
    | none => rw [hc] at h; exact Option.noConfusion h
    | some c =>
      rw [hc] at h
      simp only [Option.some_bind] at h
      simp only [Option.map_eq_map, Option.map_some', Option.some_bind]
      exact ih c n h

theorem Node.modifyAt_cons_visits (f : Node F → Node F) (i : Nat) (rest : List Nat)
    (n : Node F) : (Node.modifyAt f (i :: rest) n).visits = n.visits := by
  rw [Node.modifyAt_cons]; rfl

theorem Node.modifyAt_cons_state (f : Node F → Node F) (i : Nat) (rest : List Nat)
    (n : Node F) : (Node.modifyAt f (i :: rest) n).state = n.state := by
  rw [Node.modifyAt_cons]; rfl

theorem Node.modifyAt_cons_children_length (f : Node F → Node F) (i : Nat) (rest : List Nat)
    (n : Node F) :
    (Node.modifyAt f (i :: rest) n).children.length = n.children.length := by
  rw [Node.modifyAt_cons]; simp

end Tree

/-! ## The engine: auxiliary facts -/

section Engine

variable {F : Type} [FloatOps F]

theorem selectionFrom_leaf (node : Node F) (h : node.children = []) :
    selectionFrom node = [] := by
  rw [selectionFrom]
  split
  · rfl
  · rename_i r hr
    rw [h] at hr
    simp [maxElement] at hr

theorem selectionFrom_valid (node : Node F) :
    ∃ n : Node F, node.getAt (selectionFrom node) = some n ∧ n.children = [] := by
  induction node using selectionFrom.induct with
  | case1 node hnone =>
    rw [selectionFrom]
    split
    · exact ⟨node, Node.getAt_nil node, (maxElement_eq_none _ _).mp hnone⟩
    · rename_i r hr
      rw [hnone] at hr
      exact Option.noConfusion hr
  | case2 node r hsome ih =>
    rw [selectionFrom]
    split
    · rename_i hnone
      rw [hsome] at hnone
      exact Option.noConfusion hnone
    · rename_i r2 hr2
      rw [hsome] at hr2
      cases hr2
      obtain ⟨n, hn, hleaf⟩ := ih
      refine ⟨n, ?_, hleaf⟩
      rw [Node.getAt_cons, maxElement_valid _ _ _ hsome]
      exact hn

theorem expandChildren_eq (n : Node F) (player : Player) :
    expandChildren n player
      = n.children ++ n.state.possibleMoves.map (fun possibleMove =>
          Node.mk possibleMove (n.state.applyMove possibleMove player).2 player []
            (FloatOps.ofInt 0) 0) := by
  unfold expandChildren
  generalize n.children = init
  generalize n.state.possibleMoves = moves
  induction moves generalizing init with
  | nil => simp
  | cons mv rest ih => simp [List.foldl_cons, ih]

theorem Node.addVisit_visits (w : F) (n : Node F) : (Node.addVisit w n).visits = n.visits + 1 := by
  cases n; rfl

theorem Node.addVisit_state (w : F) (n : Node F) : (Node.addVisit w n).state = n.state := by
  cases n; rfl

theorem Node.addVisit_children (w : F) (n : Node F) :
    (Node.addVisit w n).children = n.children := by
  cases n; rfl

theorem backprob_none (m : MCTS F) (w : F) : m.backprob none w = m := by
  rw [MCTS.backprob]

theorem backprob_some (m : MCTS F) (path : List Nat) (w : F) :
    m.backprob (some path) w
      = MCTS.backprob ⟨Node.modifyAt (Node.addVisit w) path m.root⟩ (parentPath path) w := by
  rw [MCTS.backprob]

theorem backprob_root (w : F) :
    ∀ (k : Nat) (path : List Nat) (m : MCTS F), path.length = k →
      (m.backprob (some path) w).root.visits = m.root.visits + 1 ∧
        (m.backprob (some path) w).root.state = m.root.state ∧
        (m.backprob (some path) w).root.children.length = m.root.children.length := by
  intro k
  induction k with
  | zero =>
    intro path m hk
    have : path = [] := List.length_eq_zero.mp hk
    subst this
    rw [backprob_some, parentPath, backprob_none, Node.modifyAt_nil]
    exact ⟨Node.addVisit_visits _ _, Node.addVisit_state _ _,
      by rw [Node.addVisit_children]⟩
  | succ k ih =>
    intro path m hk
    cases path with
    | nil => simp at hk
    | cons i rest =>
      rw [backprob_some]
      have hlen : ((i :: rest).dropLast).length = k := by
        simp only [List.length_dropLast, List.length_cons] at hk ⊢
        omega
      have step := ih (i :: rest).dropLast ⟨Node.modifyAt (Node.addVisit w) (i :: rest) m.root⟩ hlen
      simp only [parentPath]
      refine ⟨?_, ?_, ?_⟩
      · rw [step.1, Node.modifyAt_cons_visits]
      · rw [step.2.1, Node.modifyAt_cons_state]
      · rw [step.2.2, Node.modifyAt_cons_children_length]


theorem expantion_root (m : MCTS F) (node : List Nat) :
    (m.expantion node).1.root.visits = m.root.visits ∧
      (m.expantion node).1.root.state = m.root.state ∧
      m.root.children.length ≤ (m.expantion node).1.root.children.length := by
  unfold MCTS.expantion
  cases hget : m.root.getAt node with
  | none => exact ⟨rfl, rfl, le_refl _⟩
  | some n =>
    simp only
    split
    · exact ⟨rfl, rfl, le_refl _⟩
    · have hroot : ∀ expanded : Node F, expanded.visits = n.visits →
          expanded.state = n.state → n.children.length ≤ expanded.children.length →
          (Node.modifyAt (fun _ => expanded) node m.root).visits = m.root.visits ∧
            (Node.modifyAt (fun _ => expanded) node m.root).state = m.root.state ∧
            m.root.children.length
              ≤ (Node.modifyAt (fun _ => expanded) node m.root).children.length := by
        intro expanded hv hs hc
        cases node with
        | nil =>
          rw [Node.getAt_nil] at hget
          cases hget
          rw [Node.modifyAt_nil]
          exact ⟨hv, hs, hc⟩
        | cons i rest =>
          exact ⟨Node.modifyAt_cons_visits _ _ _ _, Node.modifyAt_cons_state _ _ _ _,
            le_of_eq (Node.modifyAt_cons_children_length _ _ _ _).symm⟩
      have hexp := hroot
        (Node.mk n.move n.state n.player
          (expandChildren n (if n.player = Player.OPP then Player.BOT else Player.OPP))
          n.wins n.visits) rfl rfl
        (by rw [Node.children_mk, expandChildren_eq]; simp)
      split <;> exact hexp

theorem expantion_valid (m : MCTS F) (node : List Nat) (n : Node F)
    (hget : m.root.getAt node = some n) :
    ∃ n2 : Node F, (m.expantion node).1.root.getAt (m.expantion node).2 = some n2 := by
  unfold MCTS.expantion
  simp only [hget]
  split
  · exact ⟨n, hget⟩
  · split
    · exact ⟨_, Node.getAt_modifyAt _ node m.root n hget⟩
    · rename_i r hr
      refine ⟨r.2, ?_⟩
      simp only
      rw [Node.getAt_append, Node.getAt_modifyAt _ node m.root n hget]
      simp only [Option.some_bind]
      rw [Node.getAt_cons, maxElement_valid _ _ _ hr]
      simp [Node.getAt_nil]

theorem expantion_unvisited (m : MCTS F) (hv : m.root.visits = 0) :
    m.expantion [] = (m, []) := by
  unfold MCTS.expantion
  simp [Node.getAt_nil, hv]

theorem expantion_root_grows (m : MCTS F) (hv : m.root.visits ≠ 0)
    (hterm : m.root.state.isTerminal = false) :
    (m.expantion []).1.root.children ≠ [] := by
  have hmoves : m.root.state.possibleMoves ≠ [] := by
    intro he
    simp [Game.isTerminal, he] at hterm
  unfold MCTS.expantion
  simp only [Node.getAt_nil, hv, hterm, false_or, Bool.false_eq_true, if_false]
  have hne : expandChildren m.root
      (if m.root.player = Player.OPP then Player.BOT else Player.OPP) ≠ [] := by
    rw [expandChildren_eq]
    simp [hmoves]
  split <;> simpa [Node.modifyAt_nil] using hne

theorem iteration_root (m : MCTS F) (rnd : Nat → Nat) :
    (m.iteration rnd).1.root.visits = m.root.visits + 1 ∧
      (m.iteration rnd).1.root.state = m.root.state ∧
      m.root.children.length ≤ (m.iteration rnd).1.root.children.length := by
  obtain ⟨leaf, hleaf, _⟩ := selectionFrom_valid m.root
  obtain ⟨n2, hn2⟩ := expantion_valid m m.selection leaf hleaf
  have hexp := expantion_root m m.selection
  unfold MCTS.iteration
  simp only [hn2]
  have hback := backprob_root (MCTS.rollout n2 rnd).1 _ (m.expantion m.selection).2
    (m.expantion m.selection).1 rfl
  refine ⟨?_, ?_, ?_⟩
  · rw [hback.1, hexp.1]
  · rw [hback.2.1, hexp.2.1]
  · rw [hback.2.2]; exact hexp.2.2

theorem search_succ (m : MCTS F) (rnd : Nat → Nat) (k : Nat) :
    m.search rnd (k + 1) = MCTS.search (m.iteration rnd).1 (m.iteration rnd).2 k := rfl

theorem search_root (k : Nat) :
    ∀ (m : MCTS F) (rnd : Nat → Nat),
      (m.search rnd k).1.root.visits = m.root.visits + k ∧
        (m.search rnd k).1.root.state = m.root.state ∧
        m.root.children.length ≤ (m.search rnd k).1.root.children.length := by
  induction k with
  | zero => intro m rnd; exact ⟨rfl, rfl, le_refl _⟩
  | succ k ih =>
    intro m rnd
    rw [search_succ]
    have h1 := iteration_root m rnd
    have h2 := ih (m.iteration rnd).1 (m.iteration rnd).2
    refine ⟨?_, ?_, ?_⟩
    · rw [h2.1, h1.1]; omega
    · rw [h2.2.1, h1.2.1]
    · exact le_trans h1.2.2 h2.2.2

theorem iteration_first (m : MCTS F) (rnd : Nat → Nat) (hc : m.root.children = [])
    (hv : m.root.visits = 0) : (m.iteration rnd).1.root.children = [] := by
  have hsel : m.selection = [] := selectionFrom_leaf m.root hc
  unfold MCTS.iteration
  simp only [hsel, expantion_unvisited m hv, Node.getAt_nil]
  have hback := backprob_root (MCTS.rollout m.root rnd).1 0 [] m rfl
  exact List.length_eq_zero.mp (by rw [hback.2.2, hc]; rfl)

theorem iteration_second (m : MCTS F) (rnd : Nat → Nat) (hc : m.root.children = [])
    (hv : m.root.visits ≠ 0) (hterm : m.root.state.isTerminal = false) :
    (m.iteration rnd).1.root.children ≠ [] := by
  have hsel : m.selection = [] := selectionFrom_leaf m.root hc
  obtain ⟨n2, hn2⟩ := expantion_valid m [] m.root (Node.getAt_nil _)
  have hgrow := expantion_root_grows m hv hterm
  unfold MCTS.iteration
  simp only [hsel, hn2]
  have hback := backprob_root (MCTS.rollout n2 rnd).1 _ (m.expantion []).2
    (m.expantion []).1 rfl
  intro he
  apply hgrow
  apply List.length_eq_zero.mp
  rw [← hback.2.2, he]
  rfl

end Engine

/-! ## The rollout: auxiliary facts -/

theorem otherPlayer_ne (p : Player) (hp : p = Player.BOT ∨ p = Player.OPP) :
    otherPlayer p ≠ p ∧ (otherPlayer p = Player.BOT ∨ otherPlayer p = Player.OPP) := by
  rcases hp with h | h <;> subst h <;> exact ⟨by decide, by decide⟩

theorem possibleMoves_ne_nil_of_not_terminal (state : Game) (h : state.isTerminal = false) :
    state.possibleMoves ≠ [] := by
  intro he
  simp [Game.isTerminal, he] at h

theorem rolloutMove_mem (state : Game) (rnd : Nat → Nat) (h : state.isTerminal = false) :
    rolloutMove state rnd ∈ state.possibleMoves := by
  have hpos : 0 < state.possibleMoves.length :=
    List.length_pos.mpr (possibleMoves_ne_nil_of_not_terminal state h)
  unfold rolloutMove
  rw [List.getD_eq_getElem _ _ (Nat.mod_lt _ hpos)]
  exact List.getElem_mem _

theorem rolloutLoop_terminal (state : Game) (player : Player) (rnd : Nat → Nat)
    (h : state.isTerminal = true) : rolloutLoop state player rnd = (state, rnd) := by
  rw [rolloutLoop]
  simp [h]

theorem rolloutLoop_step (state : Game) (player : Player) (rnd : Nat → Nat)
    (h : state.isTerminal = false) :
    rolloutLoop state player rnd
      = rolloutLoop (state.applyMove (rolloutMove state rnd) player).2 (otherPlayer player)
          (fun i => rnd (i + 1)) := by
  rw [rolloutLoop]
  simp only [h, Bool.false_eq_true, dite_false]
  rfl

theorem rolloutPlies_terminal (state : Game) (player : Player) (rnd : Nat → Nat)
    (h : state.isTerminal = true) : rolloutPlies state player rnd = [] := by
  rw [rolloutPlies]
  simp [h]

theorem rolloutPlies_step (state : Game) (player : Player) (rnd : Nat → Nat)
    (h : state.isTerminal = false) :
    rolloutPlies state player rnd
      = ⟨state, player, rolloutMove state rnd⟩ ::
          rolloutPlies (state.applyMove (rolloutMove state rnd) player).2 (otherPlayer player)
            (fun i => rnd (i + 1)) := by
  rw [rolloutPlies]
  simp only [h, Bool.false_eq_true, dite_false]

theorem rolloutPlies_head (state : Game) (player : Player) (rnd : Nat → Nat) (first : Ply)
    (h : (rolloutPlies state player rnd)[0]? = some first) :
    first = ⟨state, player, rolloutMove state rnd⟩ ∧ state.isTerminal = false := by
  cases ht : state.isTerminal with
  | true =>
    rw [rolloutPlies_terminal state player rnd ht] at h
    simp at h
  | false =>
    rw [rolloutPlies_step state player rnd ht] at h
    simp only [List.getElem?_cons_zero, Option.some.injEq] at h
    exact ⟨h.symm, rfl⟩

theorem boardAfter_cons (start : Game) (p : Ply) (rest : List Ply) :
    boardAfter start (p :: rest) = boardAfter (p.board.applyMove p.move p.player).2 rest := by
  unfold boardAfter
  cases rest with
  | nil => rfl
  | cons q rest =>
    simp only [List.getLast?_cons_cons]
    cases hq : (q :: rest).getLast? with
    | none => simp at hq
    | some l => rfl

/-- The trace and the loop agree, and the trace has the shape of the loop: by
induction on the number of legal moves. -/
theorem rollout_trace (n : Nat) :
    ∀ (state : Game) (player : Player) (rnd : Nat → Nat), state.possibleMoves.length = n →
      (rolloutPlies state player rnd).length ≤ n ∧
        (rolloutLoop state player rnd).1 = boardAfter state (rolloutPlies state player rnd) ∧
        (rolloutLoop state player rnd).2
          = (fun i => rnd (i + (rolloutPlies state player rnd).length)) ∧
        (rolloutLoop state player rnd).1.isTerminal = true ∧
        (∀ ply ∈ rolloutPlies state player rnd,
          ply.board.isTerminal = false ∧ ply.move ∈ ply.board.possibleMoves ∧
            (ply.board.applyMove ply.move ply.player).1 = true) ∧
        (∀ (k : Nat) (a b : Ply), (rolloutPlies state player rnd)[k]? = some a →
          (rolloutPlies state player rnd)[k + 1]? = some b →
            b.board = (a.board.applyMove a.move a.player).2 ∧
              b.player = otherPlayer a.player) := by
  induction n using Nat.strong_induction_on with
  | _ n ih =>
    intro state player rnd hn
    cases ht : state.isTerminal with
    | true =>
      rw [rolloutPlies_terminal state player rnd ht, rolloutLoop_terminal state player rnd ht]
      refine ⟨Nat.zero_le _, rfl, rfl, ht, ?_, ?_⟩
      · intro ply hply; simp at hply
      · intro k a b ha; simp at ha
    | false =>
      have hmem := rolloutMove_mem state rnd ht
      have happ := applyMove_of_mem state (rolloutMove state rnd) player hmem
      have hlen : (state.applyMove (rolloutMove state rnd) player).2.possibleMoves.length
          = n - 1 := by
        rw [happ]
        simp only [List.length_erase_of_mem hmem, hn]
      have hpos : 0 < n := hn ▸ List.length_pos_of_mem hmem
      obtain ⟨h1, h2, h3, h4, h5, h6⟩ := ih (n - 1) (by omega)
        (state.applyMove (rolloutMove state rnd) player).2 (otherPlayer player)
        (fun i => rnd (i + 1)) hlen
      rw [rolloutPlies_step state player rnd ht, rolloutLoop_step state player rnd ht]
      refine ⟨?_, ?_, ?_, h4, ?_, ?_⟩
      · simp only [List.length_cons]; omega
      · rw [boardAfter_cons]; exact h2
      · rw [h3]
        funext i
        simp only [List.length_cons]
        rfl
      · intro ply hply
        rcases List.mem_cons.mp hply with he | he
        · subst he
          exact ⟨ht, hmem, by rw [happ]⟩
        · exact h5 ply he
      · intro k a b ha hb
        cases k with
        | zero =>
          simp only [List.getElem?_cons_zero, Option.some.injEq] at ha
          simp only [zero_add, List.getElem?_cons_succ] at hb
          subst ha
          have := (rolloutPlies_head _ _ _ b hb).1
          subst this
          exact ⟨rfl, rfl⟩
        | succ k =>
          simp only [List.getElem?_cons_succ] at ha hb
          exact h6 k a b ha hb

/-- The loop of the rollout never rewrites an occupied cell: on a board satisfying
the board invariant every pass plays a legal move, that is an empty cell. -/
theorem rolloutLoop_keeps_cell (n : Nat) :
    ∀ (state : Game) (player : Player) (rnd : Nat → Nat), state.possibleMoves.length = n →
      BoardInv state → (player = Player.BOT ∨ player = Player.OPP) →
      ∀ q : Point, q.inGrid → state.cellAt q ≠ Player.EMPTY →
        (rolloutLoop state player rnd).1.cellAt q = state.cellAt q := by
  induction n using Nat.strong_induction_on with
  | _ n ih =>
    intro state player rnd hn hinv hp q hq hocc
    cases ht : state.isTerminal with
    | true => rw [rolloutLoop_terminal state player rnd ht]
    | false =>
      have hmem := rolloutMove_mem state rnd ht
      have hlegal := (hinv.legal_iff _).mp hmem
      have hne : player ≠ Player.EMPTY := by
        rcases hp with h | h <;> rw [h] <;> decide
      have hdiff : q ≠ rolloutMove state rnd := by
        intro he
        rw [he] at hocc
        exact hocc hlegal.2
      have hkeep : (state.applyMove (rolloutMove state rnd) player).2.cellAt q
          = state.cellAt q := by
        rw [cellAt_applyMove state _ q player hinv.shape hmem hlegal.1 hq, if_neg hdiff]
      have hlen : (state.applyMove (rolloutMove state rnd) player).2.possibleMoves.length
          < n := by
        rw [applyMove_of_mem state _ player hmem]
        simp only [List.length_erase_of_mem hmem]
        have := List.length_pos_of_mem hmem
        omega
      rw [rolloutLoop_step state player rnd ht,
        ih _ hlen _ (otherPlayer player) (fun i => rnd (i + 1)) rfl
          (boardInv_applyMove state hinv _ player hne) (otherPlayer_ne player hp).2 q hq
          (by rw [hkeep]; exact hocc),
        hkeep]

/-! ## Backpropagation: auxiliary facts -/

section Backprob

variable {F : Type} [FloatOps F]

theorem Node.bumpAlong_nil (w : F) (n : Node F) : Node.bumpAlong w [] n = Node.addVisit w n := by
  cases n; rfl

theorem Node.bumpAlong_cons (w : F) (i : Nat) (rest : List Nat) (n : Node F) :
    Node.bumpAlong w (i :: rest) n
      = Node.mk n.move n.state n.player (n.children.modify (Node.bumpAlong w rest) i)
          (FloatOps.add n.wins w) (n.visits + 1) := by
  cases n; rfl

theorem Node.addVisit_eq (w : F) (n : Node F) :
    Node.addVisit w n
      = Node.mk n.move n.state n.player n.children (FloatOps.add n.wins w) (n.visits + 1) := by
  cases n; rfl

theorem Node.bumpAlong_modifyAt (w : F) (i : Nat) :
    ∀ (p : List Nat) (n : Node F),
      Node.bumpAlong w p (Node.modifyAt (Node.addVisit w) (p ++ [i]) n)
        = Node.bumpAlong w (p ++ [i]) n := by
  intro p
  induction p with
  | nil =>
    intro n
    have h1 : Node.modifyAt (Node.addVisit w) ([] : List Nat) = Node.addVisit (F := F) w := by
      funext x; exact Node.modifyAt_nil _ x
    have h2 : Node.bumpAlong w ([] : List Nat) = Node.addVisit (F := F) w := by
      funext x; exact Node.bumpAlong_nil w x
    simp only [List.nil_append]
    rw [Node.bumpAlong_nil, Node.modifyAt_cons, Node.bumpAlong_cons, Node.addVisit_eq, h1, h2]
    rfl
  | cons j q ih =>
    intro n
    have hfun : (Node.bumpAlong w q) ∘ (Node.modifyAt (Node.addVisit w) (q ++ [i]))
        = Node.bumpAlong (F := F) w (q ++ [i]) := by
      funext x; exact ih x
    simp only [List.cons_append]
    rw [Node.modifyAt_cons, Node.bumpAlong_cons, Node.bumpAlong_cons]
    simp only [Node.children_mk, Node.move_mk, Node.state_mk, Node.player_mk, Node.wins_mk,
      Node.visits_mk, List.modify_modify_eq, hfun]

theorem backprob_eq_bumpAlong (w : F) :
    ∀ (k : Nat) (path : List Nat) (m : MCTS F), path.length = k →
      m.backprob (some path) w = ⟨Node.bumpAlong w path m.root⟩ := by
  intro k
  induction k with
  | zero =>
    intro path m hk
    have : path = [] := List.length_eq_zero.mp hk
    subst this
    rw [backprob_some, parentPath, backprob_none, Node.modifyAt_nil, Node.bumpAlong_nil]
  | succ k ih =>
    intro path m hk
    rcases List.eq_nil_or_concat path with hnil | ⟨p, i, hp⟩
    · subst hnil; simp at hk
    · rw [List.concat_eq_append] at hp
      subst hp
      have hlen : p.length = k := by simpa using hk
      have hparent : parentPath (p ++ [i]) = some p := by
        cases p with
        | nil => rfl
        | cons j q =>
          simp only [List.cons_append, parentPath]
          rw [← List.cons_append, List.dropLast_concat]
      rw [backprob_some, hparent, ih p _ hlen]
      simp only [Node.bumpAlong_modifyAt]

theorem backprob_bumpAlong (m : MCTS F) (path : List Nat) (w : F) :
    m.backprob (some path) w = ⟨Node.bumpAlong w path m.root⟩ :=
  backprob_eq_bumpAlong w path.length path m rfl

theorem Node.getAt_bumpAlong (w : F) :
    ∀ (p : List Nat) (root : Node F) (q : List Nat) (x : Node F), root.getAt q = some x →
      ∃ y : Node F, (Node.bumpAlong w p root).getAt q = some y ∧
        y.move = x.move ∧ y.state = x.state ∧ y.player = x.player ∧
        y.children.length = x.children.length ∧
        (q <+: p → y.visits = x.visits + 1 ∧ y.wins = FloatOps.add x.wins w) ∧
        (¬ q <+: p → y = x) := by
  intro p
  induction p with
  | nil =>
    intro root q x hx
    cases q with
    | nil =>
      rw [Node.getAt_nil] at hx
      cases hx
      refine ⟨Node.addVisit w root, by rw [Node.bumpAlong_nil, Node.getAt_nil], ?_⟩
      rw [Node.addVisit_eq]
      exact ⟨rfl, rfl, rfl, rfl, fun _ => ⟨rfl, rfl⟩, fun h => absurd (List.prefix_refl _) h⟩
    | cons j q2 =>
      refine ⟨x, ?_, rfl, rfl, rfl, rfl, fun h => by simp at h, fun _ => rfl⟩
      rw [Node.bumpAlong_nil, Node.getAt_cons, Node.addVisit_children, ← Node.getAt_cons]
      exact hx
  | cons i p2 ih =>
    intro root q x hx
    cases q with
    | nil =>
      rw [Node.getAt_nil] at hx
      cases hx
      refine ⟨_, by rw [Node.getAt_nil], ?_⟩
      rw [Node.bumpAlong_cons]
      exact ⟨rfl, rfl, rfl, by simp, fun _ => ⟨rfl, rfl⟩,
        fun h => absurd List.nil_prefix h⟩
    | cons j q2 =>
      rw [Node.getAt_cons] at hx
      rw [Node.bumpAlong_cons, Node.getAt_cons, Node.children_mk]
      by_cases hji : j = i
      · subst hji
        rw [List.getElem?_modify_eq]
        cases hch : root.children[j]? with
        | none => rw [hch] at hx; exact Option.noConfusion hx
        | some child =>
          rw [hch] at hx
          simp only [Option.some_bind] at hx
          obtain ⟨y, hy, h1, h2, h3, h4, h5, h6⟩ := ih child q2 x hx
          refine ⟨y, by simpa using hy, h1, h2, h3, h4, ?_, ?_⟩
          · intro hpre
            exact h5 ((List.cons_prefix_cons.mp hpre).2)
          · intro hpre
            exact h6 (fun h => hpre (List.cons_prefix_cons.mpr ⟨rfl, h⟩))
      · rw [List.getElem?_modify_ne _ _ (Ne.symm hji)]
        refine ⟨x, hx, rfl, rfl, rfl, rfl, ?_, fun _ => rfl⟩
        intro hpre
        exact absurd (List.cons_prefix_cons.mp hpre).1 hji

theorem Node.getAt_bumpAlong_none (w : F) :
    ∀ (p : List Nat) (root : Node F) (q : List Nat), root.getAt q = none →
      (Node.bumpAlong w p root).getAt q = none := by
  intro p
  induction p with
  | nil =>
    intro root q hq
    cases q with
    | nil => rw [Node.getAt_nil] at hq; exact Option.noConfusion hq
    | cons j q2 =>
      rw [Node.bumpAlong_nil, Node.getAt_cons, Node.addVisit_children, ← Node.getAt_cons]
      exact hq
  | cons i p2 ih =>
    intro root q hq
    cases q with
    | nil => rw [Node.getAt_nil] at hq; exact Option.noConfusion hq
    | cons j q2 =>
      rw [Node.getAt_cons] at hq
      rw [Node.bumpAlong_cons, Node.getAt_cons, Node.children_mk]
      by_cases hji : j = i
      · subst hji
        rw [List.getElem?_modify_eq]
        cases hch : root.children[j]? with
        | none => rfl
        | some child =>
          rw [hch] at hq
          simp only [Option.some_bind] at hq
          simpa using ih child q2 hq
      · rw [List.getElem?_modify_ne _ _ (Ne.symm hji)]
        exact hq

end Backprob

/-! ## Expansion: auxiliary facts -/

section Expand

variable {F : Type} [FloatOps F]

theorem maxElementFrom_first {α : Type} (comp : α → α → Bool) (a : α) :
    ∀ (rest : List α) (first : Nat), (∀ b ∈ rest, comp a b = false) →
      maxElementFrom comp (0, a) first rest = (0, a) := by
  intro rest
  induction rest with
  | nil => intro first _; rfl
  | cons b rest ih =>
    intro first hall
    simp only [maxElementFrom, hall b (List.mem_cons_self _ _), Bool.false_eq_true, if_false]
    exact ih (first + 1) (fun x hx => hall x (List.mem_cons_of_mem _ hx))

theorem expantion_skip (m : MCTS F) (path : List Nat) (n : Node F)
    (hn : m.root.getAt path = some n) (hskip : n.visits = 0 ∨ n.state.isTerminal = true) :
    m.expantion path = (m, path) := by
  unfold MCTS.expantion
  simp only [hn, hskip, if_true]

theorem expantion_expand (m : MCTS F) (path : List Nat) (n : Node F)
    (hn : m.root.getAt path = some n) (hleaf : n.children = [])
    (hexp : ¬ (n.visits = 0 ∨ n.state.isTerminal = true)) :
    m.expantion path
      = (⟨Node.modifyAt (fun _ => expandedNode n) path m.root⟩, path ++ [0]) ∧
        n.state.possibleMoves ≠ [] := by
  have hterm : n.state.isTerminal = false := by
    cases h : n.state.isTerminal with
    | false => rfl
    | true => exact absurd (Or.inr h) hexp
  have hmoves := possibleMoves_ne_nil_of_not_terminal n.state hterm
  refine ⟨?_, hmoves⟩
  have hkids : expandChildren n (if n.player = Player.OPP then Player.BOT else Player.OPP)
      = n.state.possibleMoves.map (freshChild n) := by
    rw [expandChildren_eq, hleaf, List.nil_append]
    rfl
  unfold MCTS.expantion
  simp only [hn, hexp, if_false, hkids, Node.children_mk]
  cases hm : n.state.possibleMoves with
  | nil => exact absurd hm hmoves
  | cons mv rest =>
    have hfirst : maxElementFrom
        (fun a b : Node F =>
          FloatOps.lt
            (Node.getUCB1
              (some (Node.mk n.move n.state n.player
                (List.map (freshChild n) (mv :: rest)) n.wins n.visits)) a)
            (Node.getUCB1
              (some (Node.mk n.move n.state n.player
                (List.map (freshChild n) (mv :: rest)) n.wins n.visits)) b))
        (0, freshChild n mv) 1 (rest.map (freshChild n)) = (0, freshChild n mv) := by
      apply maxElementFrom_first
      intro b hb
      obtain ⟨mv2, _, rfl⟩ := List.mem_map.mp hb
      simp only [Node.getUCB1, freshChild, Node.visits_mk, if_true]
      exact FloatOps.lt_irrefl _
    simp only [List.map_cons] at hfirst
    simp only [List.map_cons, maxElement, hfirst, expandedNode, hm]

theorem expantion_expand_getAt (m : MCTS F) (path : List Nat) (n : Node F)
    (hn : m.root.getAt path = some n) (hleaf : n.children = [])
    (hexp : ¬ (n.visits = 0 ∨ n.state.isTerminal = true)) :
    (m.expantion path).1.root.getAt path = some (expandedNode n) ∧
      ∀ i : Nat, (m.expantion path).1.root.getAt (path ++ [i])
        = (n.state.possibleMoves[i]?).map (freshChild n) := by
  rw [(expantion_expand m path n hn hleaf hexp).1]
  have hget := Node.getAt_modifyAt (fun _ => expandedNode n) path m.root n hn
  refine ⟨hget, ?_⟩
  intro i
  rw [Node.getAt_append, hget]
  simp only [Option.some_bind, Node.getAt_cons, expandedNode, Node.children_mk,
    List.getElem?_map]
  generalize n.state.possibleMoves[i]? = o
  cases o with
  | none => rfl
  | some mv => simp [Node.getAt_nil]

end Expand

/-! ## Visit counts: auxiliary facts -/

section BalanceTree

variable {F : Type}

theorem sum_visits_modify (g : Node F → Node F) :
    ∀ (ch : List (Node F)) (i : Nat) (child : Node F), ch[i]? = some child →
      ((ch.modify g i).map Node.visits).sum + child.visits
        = (ch.map Node.visits).sum + (g child).visits := by
  intro ch
  induction ch with
  | nil => intro i child h; simp at h
  | cons a rest ih =>
    intro i child h
    cases i with
    | zero =>
      simp only [List.getElem?_cons_zero, Option.some.injEq] at h
      subst h
      simp only [List.modify_zero_cons, List.map_cons, List.sum_cons]
      omega
    | succ i =>
      simp only [List.getElem?_cons_succ] at h
      have := ih i child h
      simp only [List.modify_succ_cons, List.map_cons, List.sum_cons]
      omega

theorem Node.AllBalanced.child {root : Node F} (h : root.AllBalanced) (i : Nat)
    (child : Node F) (hc : root.children[i]? = some child) : child.AllBalanced := by
  intro q x hx
  apply h (i :: q) x
  rw [Node.getAt_cons, hc]
  exact hx

theorem Node.modifyAt_const_visits (y : Node F) :
    ∀ (p : List Nat) (root x : Node F), root.getAt p = some x → y.visits = x.visits →
      (Node.modifyAt (fun _ => y) p root).visits = root.visits := by
  intro p root x hx hy
  cases p with
  | nil =>
    rw [Node.getAt_nil] at hx
    cases hx
    rw [Node.modifyAt_nil]
    exact hy
  | cons i rest => exact Node.modifyAt_cons_visits _ _ _ _

/-- Replacing a node by a balanced one with the same visit count keeps every node
balanced. -/
theorem Node.AllBalanced.replace (y : Node F) (hy : y.AllBalanced) :
    ∀ (p : List Nat) (root x : Node F), root.getAt p = some x → y.visits = x.visits →
      root.AllBalanced → (Node.modifyAt (fun _ => y) p root).AllBalanced := by
  intro p
  induction p with
  | nil =>
    intro root x _ _ _
    rw [Node.modifyAt_nil]
    exact hy
  | cons i p2 ih =>
    intro root x hx hvis hroot q z hz
    rw [Node.getAt_cons] at hx
    cases hch : root.children[i]? with
    | none => rw [hch] at hx; exact Option.noConfusion hx
    | some child =>
      rw [hch] at hx
      simp only [Option.some_bind] at hx
      have hchild := ih child x hx hvis (hroot.child i child hch)
      rw [Node.modifyAt_cons] at hz
      cases q with
      | nil =>
        rw [Node.getAt_nil] at hz
        cases hz
        have hne : root.children ≠ [] := by
          intro he; rw [he] at hch; simp at hch
        have hbal := (hroot [] root (Node.getAt_nil root)).1 hne
        have hsum := sum_visits_modify (Node.modifyAt (fun _ => y) p2) root.children i child hch
        rw [Node.modifyAt_const_visits y p2 child x hx hvis] at hsum
        refine ⟨?_, ?_⟩
        · intro _
          simp only [Node.visits_mk, Node.children_mk]
          omega
        · intro he
          simp only [Node.children_mk, List.modify_eq_nil_iff] at he
          exact absurd he hne
      | cons j q2 =>
        rw [Node.getAt_cons, Node.children_mk] at hz
        by_cases hji : j = i
        · subst hji
          rw [List.getElem?_modify_eq, hch] at hz
          simp only [Option.map_eq_map, Option.map_some', Option.some_bind] at hz
          exact hchild q2 z hz
        · rw [List.getElem?_modify_ne _ _ (Ne.symm hji)] at hz
          exact hroot (j :: q2) z (by rw [Node.getAt_cons]; exact hz)

end BalanceTree

section Balance

variable {F : Type} [FloatOps F]

theorem Node.bumpAlong_visits (w : F) (p : List Nat) (n : Node F) :
    (Node.bumpAlong w p n).visits = n.visits + 1 := by
  cases p with
  | nil => rw [Node.bumpAlong_nil]; exact Node.addVisit_visits w n
  | cons i rest => rw [Node.bumpAlong_cons]; rfl

/-- Backpropagation from a node without children that is unvisited or terminal
keeps every node balanced. -/
theorem Node.AllBalanced.bumpAlong (w : F) :
    ∀ (p : List Nat) (root x : Node F), root.getAt p = some x → x.children = [] →
      (x.visits = 0 ∨ x.state.isTerminal = true) → root.AllBalanced →
      (Node.bumpAlong w p root).AllBalanced := by
  intro p
  induction p with
  | nil =>
    intro root x hx hleaf hcase hroot q y hy
    rw [Node.getAt_nil] at hx
    cases hx
    rw [Node.bumpAlong_nil] at hy
    cases q with
    | nil =>
      rw [Node.getAt_nil] at hy
      cases hy
      refine ⟨fun hne => absurd (by rw [Node.addVisit_children]; exact hleaf) hne, ?_⟩
      intro _ hnt
      rw [Node.addVisit_state] at hnt
      rw [Node.addVisit_visits]
      rcases hcase with h | h
      · omega
      · rw [h] at hnt; exact Bool.noConfusion hnt
    | cons j q2 =>
      rw [Node.getAt_cons, Node.addVisit_children, hleaf] at hy
      simp at hy
  | cons i p2 ih =>
    intro root x hx hleaf hcase hroot q y hy
    rw [Node.getAt_cons] at hx
    cases hch : root.children[i]? with
    | none => rw [hch] at hx; exact Option.noConfusion hx
    | some child =>
      rw [hch] at hx
      simp only [Option.some_bind] at hx
      have hchild := ih child x hx hleaf hcase (hroot.child i child hch)
      rw [Node.bumpAlong_cons] at hy
      cases q with
      | nil =>
        rw [Node.getAt_nil] at hy
        cases hy
        have hne : root.children ≠ [] := by
          intro he; rw [he] at hch; simp at hch
        have hbal := (hroot [] root (Node.getAt_nil root)).1 hne
        have hsum := sum_visits_modify (Node.bumpAlong w p2) root.children i child hch
        rw [Node.bumpAlong_visits] at hsum
        refine ⟨?_, ?_⟩
        · intro _
          simp only [Node.visits_mk, Node.children_mk]
          omega
        · intro he
          simp only [Node.children_mk, List.modify_eq_nil_iff] at he
          exact absurd he hne
      | cons j q2 =>
        rw [Node.getAt_cons, Node.children_mk] at hy
        by_cases hji : j = i
        · subst hji
          rw [List.getElem?_modify_eq, hch] at hy
          simp only [Option.map_eq_map, Option.map_some', Option.some_bind] at hy
          exact hchild q2 y hy
        · rw [List.getElem?_modify_ne _ _ (Ne.symm hji)] at hy
          exact hroot (j :: q2) y (by rw [Node.getAt_cons]; exact hy)

theorem expandedNode_allBalanced (n : Node F) (hv : n.visits = 1) :
    (expandedNode n).AllBalanced := by
  intro q x hx
  cases q with
  | nil =>
    rw [Node.getAt_nil] at hx
    cases hx
    refine ⟨?_, ?_⟩
    · intro _
      have hzero : ((expandedNode n).children.map Node.visits).sum = 0 := by
        simp only [expandedNode, Node.children_mk, List.map_map]
        apply List.sum_eq_zero
        intro v hvmem
        obtain ⟨mv, _, rfl⟩ := List.mem_map.mp hvmem
        rfl
      rw [hzero]
      exact hv
    · intro _ _
      exact le_of_eq hv
  | cons j q2 =>
    rw [Node.getAt_cons] at hx
    simp only [expandedNode, Node.children_mk, List.getElem?_map] at hx
    cases hmv : n.state.possibleMoves[j]? with
    | none => rw [hmv] at hx; exact Option.noConfusion hx
    | some mv =>
      rw [hmv] at hx
      simp only [Option.map_some', Option.some_bind] at hx
      cases q2 with
      | nil =>
        rw [Node.getAt_nil] at hx
        cases hx
        exact ⟨fun h => absurd rfl h, fun _ _ => Nat.zero_le _⟩
      | cons k q3 =>
        rw [Node.getAt_cons] at hx
        simp [freshChild] at hx

theorem iteration_allBalanced (m : MCTS F) (rnd : Nat → Nat) (h : m.root.AllBalanced) :
    (m.iteration rnd).1.root.AllBalanced := by
  obtain ⟨leaf, hleaf, hnokids⟩ := selectionFrom_valid m.root
  have hsel : m.root.getAt m.selection = some leaf := hleaf
  by_cases hskip : leaf.visits = 0 ∨ leaf.state.isTerminal = true
  · have hexp := expantion_skip m m.selection leaf hsel hskip
    unfold MCTS.iteration
    simp only [hexp, hsel]
    rw [backprob_bumpAlong]
    exact Node.AllBalanced.bumpAlong _ m.selection m.root leaf hsel hnokids hskip h
  · obtain ⟨hexp, _⟩ := expantion_expand m m.selection leaf hsel hnokids hskip
    have hkids := (expantion_expand_getAt m m.selection leaf hsel hnokids hskip).2 0
    have hterm : leaf.state.isTerminal = false := by
      cases ht : leaf.state.isTerminal with
      | false => rfl
      | true => exact absurd (Or.inr ht) hskip
    have hmoves := possibleMoves_ne_nil_of_not_terminal leaf.state hterm
    have hone : leaf.visits = 1 := by
      have hle := (h m.selection leaf hsel).2 hnokids hterm
      have hne : leaf.visits ≠ 0 := fun he => hskip (Or.inl he)
      omega
    have hroot2 : (Node.modifyAt (fun _ => expandedNode leaf) m.selection m.root).AllBalanced :=
      Node.AllBalanced.replace (expandedNode leaf) (expandedNode_allBalanced leaf hone)
        m.selection m.root leaf hsel rfl h
    rw [hexp] at hkids
    cases hm : leaf.state.possibleMoves with
    | nil => exact absurd hm hmoves
    | cons mv rest =>
      rw [hm] at hkids
      simp only [List.getElem?_cons_zero, Option.map_some'] at hkids
      unfold MCTS.iteration
      simp only [hexp, hkids]
      rw [backprob_bumpAlong]
      exact Node.AllBalanced.bumpAlong _ (m.selection ++ [0]) _ (freshChild leaf mv) hkids rfl
        (Or.inl rfl) hroot2

theorem search_allBalanced (k : Nat) :
    ∀ (m : MCTS F) (rnd : Nat → Nat), m.root.AllBalanced →
      (m.search rnd k).1.root.AllBalanced := by
  induction k with
  | zero => intro m rnd h; exact h
  | succ k ih =>
    intro m rnd h
    rw [search_succ]
    exact ih _ _ (iteration_allBalanced m rnd h)

theorem new_allBalanced (board : Game) : (MCTS.new board : MCTS F).root.AllBalanced := by
  intro q x hx
  cases q with
  | nil =>
    rw [Node.getAt_nil] at hx
    cases hx
    exact ⟨fun h => absurd rfl h, fun _ _ => Nat.zero_le _⟩
  | cons j q2 =>
    rw [Node.getAt_cons] at hx
    simp [MCTS.new, Node.new] at hx

end Balance

/-! ## Moves of the root's children: auxiliary facts -/

section RootMovesTree

variable {F : Type}

theorem map_move_modify (g : Node F → Node F) :
    ∀ (ch : List (Node F)) (i : Nat),
      (∀ child : Node F, ch[i]? = some child → (g child).move = child.move) →
      (ch.modify g i).map Node.move = ch.map Node.move := by
  intro ch
  induction ch with
  | nil => intro i _; simp
  | cons a rest ih =>
    intro i h
    cases i with
    | zero =>
      simp only [List.modify_zero_cons, List.map_cons]
      rw [h a (by simp)]
    | succ i =>
      simp only [List.modify_succ_cons, List.map_cons]
      rw [ih i (fun child hc => h child (by simpa using hc))]

theorem Node.modifyAt_const_move (y : Node F) (p : List Nat) (root x : Node F)
    (hx : root.getAt p = some x) (hy : y.move = x.move) :
    (Node.modifyAt (fun _ => y) p root).move = root.move := by
  cases p with
  | nil =>
    rw [Node.getAt_nil] at hx
    cases hx
    rw [Node.modifyAt_nil]
    exact hy
  | cons i rest => rw [Node.modifyAt_cons]; rfl

theorem Node.modifyAt_const_children_moves (y : Node F) (i : Nat) (rest : List Nat)
    (root x : Node F) (hx : root.getAt (i :: rest) = some x) (hy : y.move = x.move) :
    (Node.modifyAt (fun _ => y) (i :: rest) root).children.map Node.move
      = root.children.map Node.move := by
  rw [Node.modifyAt_cons, Node.children_mk]
  apply map_move_modify
  intro child hc
  rw [Node.getAt_cons, hc] at hx
  exact Node.modifyAt_const_move y rest child x hx hy

end RootMovesTree

section RootMoves

variable {F : Type} [FloatOps F]

theorem Node.bumpAlong_move (w : F) (p : List Nat) (n : Node F) :
    (Node.bumpAlong w p n).move = n.move := by
  cases p with
  | nil => rw [Node.bumpAlong_nil, Node.addVisit_eq]; rfl
  | cons i rest => rw [Node.bumpAlong_cons]; rfl

theorem Node.bumpAlong_children_moves (w : F) (p : List Nat) (n : Node F) :
    (Node.bumpAlong w p n).children.map Node.move = n.children.map Node.move := by
  cases p with
  | nil => rw [Node.bumpAlong_nil, Node.addVisit_children]
  | cons i rest =>
    rw [Node.bumpAlong_cons, Node.children_mk]
    exact map_move_modify _ _ _ (fun child _ => Node.bumpAlong_move w rest child)

theorem iteration_root_moves (m : MCTS F) (rnd : Nat → Nat) :
    (m.iteration rnd).1.root.children.map Node.move = m.root.children.map Node.move ∨
      (m.root.children = [] ∧
        (m.iteration rnd).1.root.children.map Node.move = m.root.state.possibleMoves) := by
  obtain ⟨leaf, hleaf, hnokids⟩ := selectionFrom_valid m.root
  have hsel : m.root.getAt m.selection = some leaf := hleaf
  by_cases hskip : leaf.visits = 0 ∨ leaf.state.isTerminal = true
  · have hexp := expantion_skip m m.selection leaf hsel hskip
    left
    unfold MCTS.iteration
    simp only [hexp, hsel]
    rw [backprob_bumpAlong]
    exact Node.bumpAlong_children_moves _ _ _
  · obtain ⟨hexp, hmoves⟩ := expantion_expand m m.selection leaf hsel hnokids hskip
    have hkids := (expantion_expand_getAt m m.selection leaf hsel hnokids hskip).2 0
    rw [hexp] at hkids
    cases hm : leaf.state.possibleMoves with
    | nil => exact absurd hm hmoves
    | cons mv rest =>
      rw [hm] at hkids
      simp only [List.getElem?_cons_zero, Option.map_some'] at hkids
      have hiter : (m.iteration rnd).1.root
          = Node.bumpAlong (MCTS.rollout (freshChild leaf mv) rnd).1 (m.selection ++ [0])
              (Node.modifyAt (fun _ => expandedNode leaf) m.selection m.root) := by
        unfold MCTS.iteration
        simp only [hexp, hkids]
        rw [backprob_bumpAlong]
      rw [hiter, Node.bumpAlong_children_moves]
      cases hp : m.selection with
      | nil =>
        right
        rw [hp, Node.getAt_nil] at hsel
        cases hsel
        refine ⟨hnokids, ?_⟩
        rw [Node.modifyAt_nil]
        simp only [expandedNode, Node.children_mk, List.map_map]
        exact List.map_id _
      | cons i p2 =>
        left
        rw [hp] at hsel
        exact Node.modifyAt_const_children_moves _ i p2 m.root leaf hsel rfl

theorem search_root_moves (board : Game) (k : Nat) :
    ∀ (m : MCTS F) (rnd : Nat → Nat), m.root.state = board →
      (m.root.children = [] ∨ m.root.children.map Node.move = board.possibleMoves) →
      ((m.search rnd k).1.root.children = [] ∨
        (m.search rnd k).1.root.children.map Node.move = board.possibleMoves) := by
  induction k with
  | zero => intro m rnd _ h; exact h
  | succ k ih =>
    intro m rnd hstate h
    rw [search_succ]
    apply ih
    · rw [(iteration_root m rnd).2.1]; exact hstate
    · rcases iteration_root_moves m rnd with hsame | ⟨_, hnew⟩
      · rcases h with h | h
        · left
          rw [h] at hsame
          simpa using hsame
        · right
          rw [hsame]; exact h
      · right
        rw [hnew, hstate]

theorem search_two_children (board : Game) (rnd : Nat → Nat)
    (hterm : board.isTerminal = false) :
    ((MCTS.new board : MCTS F).search rnd 2).1.root.children ≠ [] := by
  rw [search_succ, search_succ]
  have h1 := iteration_root (MCTS.new board : MCTS F) rnd
  have hc1 := iteration_first (MCTS.new board : MCTS F) rnd rfl rfl
  exact iteration_second _ _ hc1 (by rw [h1.1]; omega) (by rw [h1.2.1]; exact hterm)

end RootMoves


/-! ## The board: claims -/

/-- C1: `applyMove` with a coordinate that is not in the legal-move list returns
`false` and leaves the grid and the legal-move list unchanged; on a board that
satisfies the board invariant this covers every occupied cell and every
coordinate outside the grid. -/
theorem applyMove_illegal_unchanged (g : Game) (pos : Point) (player : Player)
    (h : pos ∉ g.possibleMoves ∨
      (BoardInv g ∧ (¬ pos.inGrid ∨ g.cellAt pos ≠ Player.EMPTY))) :
    (g.applyMove pos player).1 = false ∧
      (g.applyMove pos player).2.grid = g.grid ∧
      (g.applyMove pos player).2.possibleMoves = g.possibleMoves := by
  have hnot : pos ∉ g.possibleMoves := by
    rcases h with h | ⟨hinv, h⟩
    · exact h
    · intro hmem
      have := (hinv.legal_iff pos).mp hmem
      rcases h with h | h
      · exact h this.1
      · exact h this.2
  rw [applyMove_of_not_mem g pos player hnot]
  exact ⟨rfl, rfl, rfl⟩

/-- Witness of C1: the centre cell is occupied and its coordinate is offered again. -/
theorem applyMove_illegal_unchanged_witness :
    ((⟨1, 1⟩ : Point) ∉
        (⟨[[Player.EMPTY, Player.EMPTY, Player.EMPTY],
           [Player.EMPTY, Player.OPP, Player.EMPTY],
           [Player.EMPTY, Player.EMPTY, Player.EMPTY]],
          [⟨0, 0⟩, ⟨0, 1⟩, ⟨0, 2⟩, ⟨1, 0⟩, ⟨1, 2⟩, ⟨2, 0⟩, ⟨2, 1⟩, ⟨2, 2⟩]⟩ : Game).possibleMoves) ∧
      ((⟨[[Player.EMPTY, Player.EMPTY, Player.EMPTY],
           [Player.EMPTY, Player.OPP, Player.EMPTY],
           [Player.EMPTY, Player.EMPTY, Player.EMPTY]],
          [⟨0, 0⟩, ⟨0, 1⟩, ⟨0, 2⟩, ⟨1, 0⟩, ⟨1, 2⟩, ⟨2, 0⟩, ⟨2, 1⟩, ⟨2, 2⟩]⟩ : Game).applyMove
        ⟨1, 1⟩ Player.BOT).1 = false :=
  ⟨by decide,
   (applyMove_illegal_unchanged _ ⟨1, 1⟩ Player.BOT (Or.inl (by decide))).1⟩

/-- C2: on a board with a 3x3 grid whose legal moves are grid coordinates,
`applyMove` with a coordinate of the legal-move list returns `true`, writes the
player into the cell at row `y`, column `x`, keeps every other cell, and removes
from the list exactly the first occurrence of the coordinate, the other entries
staying in their order; when the list has no repetition the coordinate is no
longer in it. -/
theorem applyMove_legal_effect (g : Game) (pos : Point) (player : Player)
    (hshape : Is3x3 g.grid) (hmoves : ∀ q ∈ g.possibleMoves, q.inGrid)
    (h : pos ∈ g.possibleMoves) :
    (g.applyMove pos player).1 = true ∧
      (g.applyMove pos player).2.cell pos.y.toNat pos.x.toNat = player ∧
      (∀ r c : Nat, ¬ (r = pos.y.toNat ∧ c = pos.x.toNat) →
        (g.applyMove pos player).2.cell r c = g.cell r c) ∧
      Is3x3 (g.applyMove pos player).2.grid ∧
      (g.applyMove pos player).2.possibleMoves = g.possibleMoves.erase pos ∧
      (g.applyMove pos player).2.possibleMoves.length + 1 = g.possibleMoves.length ∧
      (∃ before after : List Point, g.possibleMoves = before ++ pos :: after ∧
        pos ∉ before ∧ (g.applyMove pos player).2.possibleMoves = before ++ after) ∧
      (∀ q : Point, q ≠ pos →
        (q ∈ (g.applyMove pos player).2.possibleMoves ↔ q ∈ g.possibleMoves)) ∧
      (g.possibleMoves.Nodup → pos ∉ (g.applyMove pos player).2.possibleMoves) := by
  have hin := hmoves pos h
  rw [applyMove_of_mem g pos player h]
  refine ⟨rfl, ?_, ?_, is3x3_setCell _ hshape _ _ _, rfl, ?_, ?_,
    fun q hq => List.mem_erase_of_ne hq, fun hnd => hnd.not_mem_erase⟩
  · rw [cell_setCell g.grid hshape pos.x pos.y ⟨hin.1, hin.2.1⟩ ⟨hin.2.2.1, hin.2.2.2⟩ player
      _ _ _ g.possibleMoves]
    simp
  · intro r c hrc
    rw [cell_setCell g.grid hshape pos.x pos.y ⟨hin.1, hin.2.1⟩ ⟨hin.2.2.1, hin.2.2.2⟩ player
      _ _ _ g.possibleMoves, if_neg hrc]
  · simp only [List.length_erase_of_mem h]
    have := List.length_pos_of_mem h
    omega
  · obtain ⟨before, after, hnot, hsplit, herase⟩ := List.exists_erase_eq h
    exact ⟨before, after, hsplit, hnot, herase⟩

/-- Witness of C2: the centre is played on the initial board. -/
theorem applyMove_legal_effect_witness :
    Is3x3 ({} : Game).grid ∧ (∀ q ∈ ({} : Game).possibleMoves, q.inGrid) ∧
      (⟨1, 1⟩ : Point) ∈ ({} : Game).possibleMoves ∧
      (({} : Game).applyMove ⟨1, 1⟩ Player.OPP).1 = true :=
  ⟨by decide, by decide, by decide,
   (applyMove_legal_effect {} ⟨1, 1⟩ Player.OPP (by decide) (by decide) (by decide)).1⟩

/-- C3: on every board reached from the initial board by `applyMove` calls made for
`BOT` or `OPP`, successful or not, a coordinate is in the legal-move list exactly
when it names an `EMPTY` cell of the grid, and occupied cells plus legal moves
count nine. -/
theorem reachable_legal_iff_empty (calls : List (Point × Player))
    (hplayers : ∀ c ∈ calls, c.2 = Player.BOT ∨ c.2 = Player.OPP) :
    (∀ p : Point, p ∈ (applyMoves {} calls).possibleMoves ↔
        (p.inGrid ∧ (applyMoves {} calls).cellAt p = Player.EMPTY)) ∧
      (applyMoves {} calls).occupied + (applyMoves {} calls).possibleMoves.length = 9 := by
  have hinv := boardInv_applyMoves calls {} boardInv_initial hplayers
  exact ⟨hinv.legal_iff, hinv.count⟩

/-- Witness of C3: a move, a repeated (failing) move and an out-of-grid move. -/
theorem reachable_legal_iff_empty_witness :
    (∀ c ∈ [((⟨1, 1⟩ : Point), Player.OPP), (⟨1, 1⟩, Player.BOT), (⟨3, 0⟩, Player.BOT)],
        c.2 = Player.BOT ∨ c.2 = Player.OPP) ∧
      (applyMoves {} [(⟨1, 1⟩, Player.OPP), (⟨1, 1⟩, Player.BOT), (⟨3, 0⟩, Player.BOT)]).occupied
        + (applyMoves {} [(⟨1, 1⟩, Player.OPP), (⟨1, 1⟩, Player.BOT),
            (⟨3, 0⟩, Player.BOT)]).possibleMoves.length = 9 :=
  ⟨by decide,
   (reachable_legal_iff_empty
      [(⟨1, 1⟩, Player.OPP), (⟨1, 1⟩, Player.BOT), (⟨3, 0⟩, Player.BOT)] (by decide)).2⟩

/-- C4: on a 3x3 grid `getWinner` returns `EMPTY` when no line is filled by a player,
in particular on the initial board; and when one of the eight lines is filled by
`p` (`BOT` or `OPP`) and the other player fills no line, it returns `p`. -/
theorem getWinner_lines (g : Game) (hshape : Is3x3 g.grid) :
    ((∀ line ∈ winLines, ∀ p : Player, p ≠ Player.EMPTY → ¬ g.lineFilledBy line p) →
        g.getWinner = Player.EMPTY) ∧
      ({} : Game).getWinner = Player.EMPTY ∧
      (∀ line ∈ winLines, ∀ p : Player, (p = Player.BOT ∨ p = Player.OPP) →
        g.lineFilledBy line p →
        (∀ other ∈ winLines, ∀ q : Player, q ≠ Player.EMPTY → q ≠ p →
          ¬ g.lineFilledBy other q) →
        g.getWinner = p) := by
  refine ⟨?_, by decide, ?_⟩
  · intro hno
    by_contra hne
    obtain ⟨line, hline, hfill⟩ := getWinner_fills_line g g.getWinner rfl hne
    exact hno line hline _ hne hfill
  · intro line hline p hp hfill hother
    have hpne : p ≠ Player.EMPTY := by
      rcases hp with h | h <;> simp [h]
    have hne : g.getWinner ≠ Player.EMPTY := fun he =>
      getWinner_empty_no_line g he line hline p hpne hfill
    obtain ⟨l2, hl2, hfill2⟩ := getWinner_fills_line g g.getWinner rfl hne
    by_contra hdiff
    exact hother l2 hl2 _ hne hdiff hfill2

/-- Witness of C4: the middle column is filled by `OPP` and `BOT` fills no line. -/
theorem getWinner_lines_witness :
    Is3x3 ([[Player.BOT, Player.OPP, Player.EMPTY],
            [Player.EMPTY, Player.OPP, Player.BOT],
            [Player.EMPTY, Player.OPP, Player.EMPTY]] : List (List Player)) ∧
      (⟨[[Player.BOT, Player.OPP, Player.EMPTY],
         [Player.EMPTY, Player.OPP, Player.BOT],
         [Player.EMPTY, Player.OPP, Player.EMPTY]],
        [⟨0, 1⟩, ⟨0, 2⟩, ⟨2, 0⟩, ⟨2, 2⟩]⟩ : Game).getWinner = Player.OPP :=
  ⟨by decide,
   (getWinner_lines
      ⟨[[Player.BOT, Player.OPP, Player.EMPTY],
        [Player.EMPTY, Player.OPP, Player.BOT],
        [Player.EMPTY, Player.OPP, Player.EMPTY]],
       [⟨0, 1⟩, ⟨0, 2⟩, ⟨2, 0⟩, ⟨2, 2⟩]⟩ (by decide)).2.2
      [(0, 1), (1, 1), (2, 1)] (by decide) Player.OPP (Or.inr rfl) (by decide) (by decide)⟩

/-- C5: `isTerminal` returns `true` exactly when `getWinner` is not `EMPTY` or the
legal-move list is empty, and `false` otherwise. -/
theorem isTerminal_iff (g : Game) :
    (g.isTerminal = true ↔ (g.getWinner ≠ Player.EMPTY ∨ g.possibleMoves = [])) ∧
      (g.isTerminal = false ↔ ¬ (g.getWinner ≠ Player.EMPTY ∨ g.possibleMoves = [])) := by
  have h1 : g.isTerminal = true ↔ (g.getWinner ≠ Player.EMPTY ∨ g.possibleMoves = []) := by
    simp only [Game.isTerminal, Bool.or_eq_true, List.isEmpty_iff, bne_iff_ne]
    exact Or.comm
  refine ⟨h1, ?_⟩
  rw [← h1]
  simp

/-! ## The engine: claims -/

/-- C6: when the root has a child, the final step of `getBestMove` returns the move of
a child whose visit count no child exceeds, and every child before it in child
order has a strictly smaller visit count (the first child with the maximum). -/
theorem reportBest_first_max {F : Type} (m : MCTS F) (h : m.root.children ≠ []) :
    ∃ (i : Nat) (best : Node F), m.root.children[i]? = some best ∧
      m.reportBest = some best.move ∧
      (∀ d ∈ m.root.children, d.visits ≤ best.visits) ∧
      (∀ (j : Nat) (d : Node F), j < i → m.root.children[j]? = some d →
        d.visits < best.visits) := by
  cases hch : m.root.children with
  | nil => exact absurd hch h
  | cons a rest =>
    have hval := maxElementFrom_valid (fun x y : Node F => decide (x.visits < y.visits))
      rest [a] (0, a) rfl
    have hkey := maxElementFrom_key (fun x : Node F => x.visits) rest [a] (0, a) rfl
      (by
        intro j d hj
        cases j with
        | zero =>
          simp only [List.getElem?_cons_zero, Option.some.injEq] at hj
          subst hj
          exact ⟨le_refl _, fun hlt => absurd hlt (lt_irrefl _)⟩
        | succ j => simp at hj)
    refine ⟨_, _, hval, ?_, ?_, ?_⟩
    · simp only [MCTS.reportBest, hch, maxElement]
      rfl
    · intro d hd
      obtain ⟨j, hj⟩ := List.getElem?_of_mem hd
      exact (hkey j d hj).1
    · intro j d hlt hj
      exact (hkey j d hj).2 hlt

/-- Witness of C6: with visit counts 3, 5, 5, 2 the move of the second child is
returned. -/
theorem reportBest_first_max_witness :
    tieTree.root.children ≠ [] ∧ tieTree.reportBest = some ⟨0, 1⟩ ∧
      ∃ (i : Nat) (best : Node Fixed), tieTree.root.children[i]? = some best ∧
        tieTree.reportBest = some best.move ∧
        (∀ d ∈ tieTree.root.children, d.visits ≤ best.visits) ∧
        (∀ (j : Nat) (d : Node Fixed), j < i → tieTree.root.children[j]? = some d →
          d.visits < best.visits) :=
  ⟨by simp [tieTree], by decide, reportBest_first_max tieTree (by simp [tieTree])⟩

/-- C7, as stated, fails: on the initial (non-terminal) board the root has no child
after zero and after one completed pass, for the first pass finds the root
unvisited and does not expand it. -/
theorem root_childless_before_second_pass :
    ({} : Game).isTerminal = false ∧
      ((MCTS.new {} : MCTS Fixed).search zeroStream 0).1.root.children = [] ∧
      ((MCTS.new {} : MCTS Fixed).search zeroStream 1).1.root.children = [] ∧
      (MCTS.new {} : MCTS Fixed).getBestMove zeroStream 1 = none := by
  have h1 : ((MCTS.new {} : MCTS Fixed).search zeroStream 1).1.root.children = [] :=
    iteration_first (MCTS.new {}) zeroStream rfl rfl
  refine ⟨by decide, rfl, h1, ?_⟩
  simp only [MCTS.getBestMove, MCTS.reportBest, h1, maxElement]

/-- C7, amended: for a non-terminal supplied board the root of a fresh engine has at
least one child after every number `N ≥ 2` of completed passes. -/
theorem root_has_child_from_second_pass {F : Type} [FloatOps F] (board : Game)
    (rnd : Nat → Nat) (N : Nat) (hN : 2 ≤ N) (hterm : board.isTerminal = false) :
    ((MCTS.new board : MCTS F).search rnd N).1.root.children ≠ [] := by
  obtain ⟨k, rfl⟩ : ∃ k, N = k + 1 + 1 := ⟨N - 2, by omega⟩
  rw [search_succ, search_succ]
  have h1 := iteration_root (MCTS.new board : MCTS F) rnd
  have hc1 := iteration_first (MCTS.new board : MCTS F) rnd rfl rfl
  have hv1 : ((MCTS.new board : MCTS F).iteration rnd).1.root.visits ≠ 0 := by
    rw [h1.1]; omega
  have hs1 : ((MCTS.new board : MCTS F).iteration rnd).1.root.state.isTerminal = false := by
    rw [h1.2.1]; exact hterm
  have h2 := iteration_second ((MCTS.new board : MCTS F).iteration rnd).1
    ((MCTS.new board : MCTS F).iteration rnd).2 hc1 hv1 hs1
  have h3 := (search_root k
    (((MCTS.new board : MCTS F).iteration rnd).1.iteration
      ((MCTS.new board : MCTS F).iteration rnd).2).1
    (((MCTS.new board : MCTS F).iteration rnd).1.iteration
      ((MCTS.new board : MCTS F).iteration rnd).2).2).2.2
  intro he
  rw [he] at h3
  exact h2 (List.length_eq_zero.mp (Nat.le_zero.mp h3))

/-- Witness of C7 amended: the initial board and two passes. -/
theorem root_has_child_from_second_pass_witness :
    2 ≤ 2 ∧ ({} : Game).isTerminal = false ∧
      ((MCTS.new {} : MCTS Fixed).search zeroStream 2).1.root.children ≠ [] :=
  ⟨le_refl 2, by decide,
   root_has_child_from_second_pass {} zeroStream 2 (le_refl 2) (by decide)⟩

/-- C8, evaluated at a drawn game: the human's fifth move fills the board, `main`
hands that terminal board to the engine, and `getBestMove` on it finds no child
of the root whatever the number of passes. -/
theorem main_searches_terminal_board :
    drawBoard ∈ mainLoop {} drawInputs drawReplies ∧ drawBoard.isTerminal = true ∧
      ∀ (rnd : Nat → Nat) (N : Nat),
        (MCTS.new drawBoard : MCTS Fixed).getBestMove rnd N = none := by
  refine ⟨by decide, by decide, ?_⟩
  intro rnd N
  have hchildless : ∀ (k : Nat) (m : MCTS Fixed) (r : Nat → Nat),
      m.root.children = [] → m.root.state.isTerminal = true →
      (m.search r k).1.root.children = [] := by
    intro k
    induction k with
    | zero => intro m r hc _; exact hc
    | succ k ih =>
      intro m r hc ht
      rw [search_succ]
      have hsel : m.selection = [] := selectionFrom_leaf m.root hc
      have hexp : m.expantion [] = (m, []) := by
        unfold MCTS.expantion
        simp [Node.getAt_nil, ht]
      have hit : (m.iteration r).1.root.children = [] := by
        unfold MCTS.iteration
        simp only [hsel, hexp, Node.getAt_nil]
        have hback := backprob_root (MCTS.rollout m.root r).1 0 [] m rfl
        exact List.length_eq_zero.mp (by rw [hback.2.2, hc]; rfl)
      exact ih _ _ hit (by rw [(iteration_root m r).2.1]; exact ht)
  have hc := hchildless N (MCTS.new drawBoard) rnd rfl (by decide)
  simp only [MCTS.getBestMove, MCTS.reportBest, hc, maxElement]

/-- C9: after `N` completed passes on a fresh engine the root's visit count is `N`,
for every supplied board and every random stream. -/
theorem root_visits_eq_passes {F : Type} [FloatOps F] (board : Game) (rnd : Nat → Nat)
    (N : Nat) : ((MCTS.new board : MCTS F).search rnd N).1.root.visits = N := by
  rw [(search_root N (MCTS.new board : MCTS F) rnd).1]
  show 0 + N = N
  omega

/-- C10: `getUCB1` returns `+infinity` for a node with zero visits, whatever its
parent, player and score, and for a node without parent. -/
theorem getUCB1_infinite {F : Type} [FloatOps F] (parent : Option (Node F)) (n : Node F)
    (h : n.visits = 0 ∨ parent = none) : Node.getUCB1 parent n = FloatOps.inf := by
  unfold Node.getUCB1
  cases parent with
  | none => rfl
  | some par =>
    rcases h with h | h
    · simp [h]
    · exact Option.noConfusion h

/-- Witness of C10: an unvisited node with score 3 under a parent with 15 visits. -/
theorem getUCB1_infinite_witness :
    (Node.mk ⟨0, 0⟩ {} Player.BOT [] (⟨some 3000⟩ : Fixed) 0).visits = 0 ∧
      Node.getUCB1 (some tieTree.root) (Node.mk ⟨0, 0⟩ {} Player.BOT [] (⟨some 3000⟩ : Fixed) 0)
        = FloatOps.inf :=
  ⟨rfl, getUCB1_infinite (some tieTree.root) _ (Or.inl rfl)⟩

/-! ## The rollout: claims -/

/-- C11: from a node whose board has exactly one legal move and no winner, `rollout`
makes exactly one pass of its loop, playing that move for the node's player and
consuming one random value, and returns `-1.0`, `1.0` or `0.0` according to
whether the winner of the resulting board is `OPP`, `BOT` or nobody; that board
has no legal move left and, under the board invariant, nine occupied cells. -/
theorem rollout_last_move {F : Type} [FloatOps F] (node : Node F) (rnd : Nat → Nat)
    (hone : node.state.possibleMoves.length = 1)
    (hwin : node.state.getWinner = Player.EMPTY) :
    ∃ mv : Point, node.state.possibleMoves = [mv] ∧
      rolloutPlies node.state node.player rnd = [⟨node.state, node.player, mv⟩] ∧
      (rolloutLoop node.state node.player rnd).1 = (node.state.applyMove mv node.player).2 ∧
      (MCTS.rollout node rnd).2 = (fun i => rnd (i + 1)) ∧
      (node.state.applyMove mv node.player).2.possibleMoves = [] ∧
      (BoardInv node.state → node.player ≠ Player.EMPTY →
        (node.state.applyMove mv node.player).2.occupied = 9) ∧
      ((node.state.applyMove mv node.player).2.getWinner = Player.OPP →
        (MCTS.rollout node rnd).1 = FloatOps.ofInt (-1)) ∧
      ((node.state.applyMove mv node.player).2.getWinner = Player.BOT →
        (MCTS.rollout node rnd).1 = FloatOps.ofInt 1) ∧
      ((node.state.applyMove mv node.player).2.getWinner = Player.EMPTY →
        (MCTS.rollout node rnd).1 = FloatOps.ofInt 0) ∧
      ((MCTS.rollout node rnd).1 = FloatOps.ofInt (-1) ∨
        (MCTS.rollout node rnd).1 = FloatOps.ofInt 0 ∨
        (MCTS.rollout node rnd).1 = FloatOps.ofInt 1) := by
  obtain ⟨mv, hmv⟩ := List.length_eq_one.mp hone
  have hnt : node.state.isTerminal = false := by
    simp [Game.isTerminal, hmv, hwin]
  have hmove : rolloutMove node.state rnd = mv := by
    simp [rolloutMove, hmv, Nat.mod_one]
  have hmem : mv ∈ node.state.possibleMoves := by simp [hmv]
  have happ := applyMove_of_mem node.state mv node.player hmem
  have hempty : (node.state.applyMove mv node.player).2.possibleMoves = [] := by
    rw [happ]; simp [hmv]
  have hterm : (node.state.applyMove mv node.player).2.isTerminal = true := by
    simp [Game.isTerminal, hempty]
  have hloop : rolloutLoop node.state node.player rnd
      = ((node.state.applyMove mv node.player).2, fun i => rnd (i + 1)) := by
    rw [rolloutLoop_step _ _ _ hnt, hmove, rolloutLoop_terminal _ _ _ hterm]
  have hplies : rolloutPlies node.state node.player rnd = [⟨node.state, node.player, mv⟩] := by
    rw [rolloutPlies_step _ _ _ hnt, hmove, rolloutPlies_terminal _ _ _ hterm]
  refine ⟨mv, hmv, hplies, by rw [hloop], ?_, hempty, ?_, ?_, ?_, ?_, ?_⟩
  · simp only [MCTS.rollout, hloop]
    split_ifs <;> rfl
  · intro hinv hpl
    have hc := (boardInv_applyMove node.state hinv mv node.player hpl).count
    rw [hempty] at hc
    simpa using hc
  · intro hw
    simp [MCTS.rollout, hloop, hw]
  · intro hw
    simp [MCTS.rollout, hloop, hw]
  · intro hw
    simp [MCTS.rollout, hloop, hw]
  · simp only [MCTS.rollout, hloop]
    split_ifs
    · exact Or.inl rfl
    · exact Or.inr (Or.inr rfl)
    · exact Or.inr (Or.inl rfl)

/-- Witness of C11: the last free cell of a board without winner is played. -/
theorem rollout_last_move_witness :
    lastMoveNode.state.possibleMoves.length = 1 ∧
      lastMoveNode.state.getWinner = Player.EMPTY ∧
      ∃ mv : Point, lastMoveNode.state.possibleMoves = [mv] ∧
        rolloutPlies lastMoveNode.state lastMoveNode.player zeroStream
          = [⟨lastMoveNode.state, lastMoveNode.player, mv⟩] :=
  ⟨by decide, by decide,
   (rollout_last_move lastMoveNode zeroStream (by decide) (by decide)).imp
     (fun _ h => ⟨h.1, h.2.1⟩)⟩

/-- C15: from a node whose board satisfies the board invariant, the loop of `rollout`
makes at most as many passes as the board has legal moves; the first pass starts
from the node's board with the node's player; every pass finds a non-terminal
board and calls `applyMove` with a legal move, which succeeds; each pass starts
from the board the previous one produced with the other player; the loop ends
with the first terminal board, which is the one `rollout` scores. The node is an
argument read by `rollout`, whose results are the score and the random stream:
no board of the tree is written. -/
theorem rollout_passes {F : Type} [FloatOps F] (node : Node F) (rnd : Nat → Nat)
    (hinv : BoardInv node.state) :
    (rolloutPlies node.state node.player rnd).length ≤ node.state.possibleMoves.length ∧
      (∀ first : Ply, (rolloutPlies node.state node.player rnd)[0]? = some first →
        first.board = node.state ∧ first.player = node.player) ∧
      (∀ ply ∈ rolloutPlies node.state node.player rnd,
        ply.board.isTerminal = false ∧ ply.move ∈ ply.board.possibleMoves ∧
          (ply.board.applyMove ply.move ply.player).1 = true) ∧
      (∀ (k : Nat) (a b : Ply), (rolloutPlies node.state node.player rnd)[k]? = some a →
        (rolloutPlies node.state node.player rnd)[k + 1]? = some b →
          b.board = (a.board.applyMove a.move a.player).2 ∧ b.player = otherPlayer a.player) ∧
      (∀ (k : Nat) (a : Ply), (rolloutPlies node.state node.player rnd)[k]? = some a →
        a.player = otherPlayer^[k] node.player) ∧
      ((node.player = Player.BOT ∨ node.player = Player.OPP) →
        ∀ (k : Nat) (a : Ply), (rolloutPlies node.state node.player rnd)[k]? = some a →
          a.player = (if k % 2 = 0 then node.player else otherPlayer node.player) ∧
            otherPlayer a.player ≠ a.player) ∧
      (rolloutLoop node.state node.player rnd).1
        = boardAfter node.state (rolloutPlies node.state node.player rnd) ∧
      (rolloutLoop node.state node.player rnd).1.isTerminal = true ∧
      (MCTS.rollout node rnd).2
        = (fun i => rnd (i + (rolloutPlies node.state node.player rnd).length)) := by
  obtain ⟨h1, h2, h3, h4, h5, h6⟩ :=
    rollout_trace node.state.possibleMoves.length node.state node.player rnd rfl
  have hiter : ∀ (k : Nat) (a : Ply),
      (rolloutPlies node.state node.player rnd)[k]? = some a →
        a.player = otherPlayer^[k] node.player := by
    intro k
    induction k with
    | zero =>
      intro a ha
      rw [(rolloutPlies_head _ _ _ a ha).1]
      rfl
    | succ k ih =>
      intro a ha
      have hk : k < (rolloutPlies node.state node.player rnd).length := by
        have := (List.getElem?_eq_some.mp ha).1
        omega
      have hprev := List.getElem?_eq_getElem hk
      rw [(h6 k _ a hprev ha).2, ih _ hprev, Function.iterate_succ_apply']
  refine ⟨h1, ?_, h5, h6, hiter, ?_, h2, h4, ?_⟩
  · intro first hfirst
    rw [(rolloutPlies_head _ _ _ first hfirst).1]
    exact ⟨rfl, rfl⟩
  · intro hp k a ha
    have hinvol : otherPlayer (otherPlayer node.player) = node.player := by
      rcases hp with h | h <;> rw [h] <;> rfl
    have hpar : ∀ j : Nat, otherPlayer^[j] node.player
        = (if j % 2 = 0 then node.player else otherPlayer node.player) := by
      intro j
      induction j with
      | zero => rfl
      | succ j ihj =>
        rw [Function.iterate_succ_apply', ihj]
        by_cases hj : j % 2 = 0
        · have : (j + 1) % 2 ≠ 0 := by omega
          simp [hj, this]
        · have : (j + 1) % 2 = 0 := by omega
          simp [hj, this, hinvol]
    have hval := hiter k a ha
    rw [hpar k] at hval
    refine ⟨hval, ?_⟩
    rw [hval]
    split
    · exact (otherPlayer_ne _ hp).1
    · exact (otherPlayer_ne _ (otherPlayer_ne _ hp).2).1
  · simp only [MCTS.rollout]
    rw [← h3]
    split_ifs <;> rfl

/-- Witness of C15: the rollout from the root of a fresh engine on the initial
board. -/
theorem rollout_passes_witness :
    BoardInv (MCTS.new {} : MCTS Fixed).root.state ∧
      (rolloutPlies (MCTS.new {} : MCTS Fixed).root.state
          (MCTS.new {} : MCTS Fixed).root.player zeroStream).length
        ≤ (MCTS.new {} : MCTS Fixed).root.state.possibleMoves.length :=
  ⟨boardInv_initial, (rollout_passes (MCTS.new {} : MCTS Fixed).root zeroStream
    boardInv_initial).1⟩

/-! ## Backpropagation and expansion: claims -/

/-- C12: `backprob(n, w)` on a node `n` of the tree adds one visit and `w` to the score
of every node on the path from the root to `n` (the paths that are prefixes of
the path of `n`), keeps the move, board, player and number of children of every
node, leaves every node off that path as it is, and makes no path valid or
invalid. -/
theorem backprob_effect {F : Type} [FloatOps F] (m : MCTS F) (path : List Nat) (n : Node F)
    (w : F) (hn : m.root.getAt path = some n) :
    (∀ (q : List Nat) (x : Node F), m.root.getAt q = some x →
      ∃ y : Node F, (m.backprob (some path) w).root.getAt q = some y ∧
        y.move = x.move ∧ y.state = x.state ∧ y.player = x.player ∧
        y.children.length = x.children.length ∧
        (q <+: path → y.visits = x.visits + 1 ∧ y.wins = FloatOps.add x.wins w) ∧
        (¬ q <+: path → y = x)) ∧
      (∀ q : List Nat, m.root.getAt q = none →
        (m.backprob (some path) w).root.getAt q = none) := by
  rw [backprob_bumpAlong]
  exact ⟨fun q x hx => Node.getAt_bumpAlong w path m.root q x hx,
    fun q hq => Node.getAt_bumpAlong_none w path m.root q hq⟩

/-- Witness of C12: backpropagation from the second child of a root with four
children. -/
theorem backprob_effect_witness :
    tieTree.root.getAt [1] = some (Node.mk ⟨0, 1⟩ {} Player.BOT [] ⟨some 2000⟩ 5) ∧
      ∃ y : Node Fixed,
        (tieTree.backprob (some [1]) (FloatOps.ofInt 1)).root.getAt [1] = some y ∧
          y.visits = 5 + 1 :=
  ⟨rfl,
   ((backprob_effect tieTree [1] _ (FloatOps.ofInt 1) rfl).1 [1]
      (Node.mk ⟨0, 1⟩ {} Player.BOT [] ⟨some 2000⟩ 5) rfl).imp
     (fun _ h => ⟨h.1, (h.2.2.2.2.2.1 (List.prefix_refl _)).1⟩)⟩

/-- C13: when `expantion` is called on a node of the tree without children, with
`visits > 0` and a non-terminal board, the node keeps its own members and gets
exactly one child per legal move of its board, in list order. The child for a
move has that move, the other player than the node's, the node's board after
`applyMove(move, player)` (which succeeds, so the child has one legal move
fewer), the node as parent, no children, and `visits` and `wins` zero. -/
theorem expantion_children {F : Type} [FloatOps F] (m : MCTS F) (path : List Nat)
    (n : Node F) (hn : m.root.getAt path = some n) (hleaf : n.children = [])
    (hv : 0 < n.visits) (hterm : n.state.isTerminal = false) :
    ∃ expanded : Node F, (m.expantion path).1.root.getAt path = some expanded ∧
      expanded.move = n.move ∧ expanded.state = n.state ∧ expanded.player = n.player ∧
      expanded.wins = n.wins ∧ expanded.visits = n.visits ∧
      expanded.children.length = n.state.possibleMoves.length ∧
      expanded.children.map Node.move = n.state.possibleMoves ∧
      (∀ i : Nat, (m.expantion path).1.root.getAt (path ++ [i]) = expanded.children[i]?) ∧
      (∀ (i : Nat) (child : Node F), expanded.children[i]? = some child →
        n.state.possibleMoves[i]? = some child.move ∧
          parentPath (path ++ [i]) = some path ∧
          child.player = (if n.player = Player.OPP then Player.BOT else Player.OPP) ∧
          (n.player = Player.BOT → child.player = Player.OPP) ∧
          (n.player = Player.OPP → child.player = Player.BOT) ∧
          (n.state.applyMove child.move child.player).1 = true ∧
          child.state = (n.state.applyMove child.move child.player).2 ∧
          child.state.possibleMoves.length + 1 = n.state.possibleMoves.length ∧
          child.children = [] ∧ child.visits = 0 ∧ child.wins = FloatOps.ofInt 0) := by
  have hexp : ¬ (n.visits = 0 ∨ n.state.isTerminal = true) := by
    rintro (h | h)
    · omega
    · rw [hterm] at h; exact Bool.noConfusion h
  obtain ⟨hget, hkids⟩ := expantion_expand_getAt m path n hn hleaf hexp
  refine ⟨expandedNode n, hget, rfl, rfl, rfl, rfl, rfl, by simp [expandedNode], ?_, ?_, ?_⟩
  · simp only [expandedNode, Node.children_mk, List.map_map]
    exact List.map_id _
  · intro i
    rw [hkids i]
    simp [expandedNode]
  · intro i child hchild
    simp only [expandedNode, Node.children_mk, List.getElem?_map] at hchild
    cases hmv : n.state.possibleMoves[i]? with
    | none => rw [hmv] at hchild; exact Option.noConfusion hchild
    | some mv =>
      rw [hmv] at hchild
      simp only [Option.map_some', Option.some.injEq] at hchild
      subst hchild
      have hmem : mv ∈ n.state.possibleMoves := List.getElem?_mem hmv
      have happ := applyMove_of_mem n.state mv (otherPlayer n.player) hmem
      have hparent : parentPath (path ++ [i]) = some path := by
        cases path with
        | nil => rfl
        | cons j q =>
          simp only [List.cons_append, parentPath]
          rw [← List.cons_append, List.dropLast_concat]
      refine ⟨rfl, hparent, rfl, ?_, ?_, ?_, rfl, ?_, rfl, rfl, rfl⟩
      · intro hp; simp [freshChild, otherPlayer, hp]
      · intro hp; simp [freshChild, otherPlayer, hp]
      · simp only [freshChild, Node.move_mk, Node.player_mk]
        rw [happ]
      · simp only [freshChild, Node.state_mk]
        rw [happ]
        simp only [List.length_erase_of_mem hmem]
        have := List.length_pos_of_mem hmem
        omega

/-- Witness of C13: the root of the initial board, visited once, is expanded. -/
theorem expantion_children_witness :
    visitedRoot.root.getAt [] = some visitedRoot.root ∧ visitedRoot.root.children = [] ∧
      0 < visitedRoot.root.visits ∧ visitedRoot.root.state.isTerminal = false ∧
      ∃ expanded : Node Fixed, (visitedRoot.expantion []).1.root.getAt [] = some expanded ∧
        expanded.children.length = visitedRoot.root.state.possibleMoves.length :=
  ⟨rfl, rfl, by decide, by decide,
   (expantion_children visitedRoot [] visitedRoot.root rfl rfl (by decide) (by decide)).imp
     (fun _ h => ⟨h.1, h.2.2.2.2.2.2.1⟩)⟩

/-- C14: called on a node of the tree without children, `expantion` returns that node
and the same tree when the node has zero visits or a terminal board; otherwise
it returns the child at index `0` of the expanded node, which is the child
created for the first legal move of the node's board. -/
theorem expantion_returns {F : Type} [FloatOps F] (m : MCTS F) (path : List Nat)
    (n : Node F) (hn : m.root.getAt path = some n) (hleaf : n.children = []) :
    ((n.visits = 0 ∨ n.state.isTerminal = true) → m.expantion path = (m, path)) ∧
      (¬ (n.visits = 0 ∨ n.state.isTerminal = true) →
        (m.expantion path).2 = path ++ [0] ∧
          ∃ (mv : Point) (child : Node F), n.state.possibleMoves.head? = some mv ∧
            (m.expantion path).1.root.getAt (m.expantion path).2 = some child ∧
            child.move = mv ∧ child.visits = 0 ∧ child.children = [] ∧
            child.state
              = (n.state.applyMove mv
                  (if n.player = Player.OPP then Player.BOT else Player.OPP)).2) := by
  refine ⟨expantion_skip m path n hn, ?_⟩
  intro hexp
  obtain ⟨heq, hmoves⟩ := expantion_expand m path n hn hleaf hexp
  obtain ⟨_, hkids⟩ := expantion_expand_getAt m path n hn hleaf hexp
  have hpath : (m.expantion path).2 = path ++ [0] := by rw [heq]
  refine ⟨hpath, ?_⟩
  cases hm : n.state.possibleMoves with
  | nil => exact absurd hm hmoves
  | cons mv rest =>
    refine ⟨mv, freshChild n mv, rfl, ?_, rfl, rfl, rfl, rfl⟩
    rw [hpath, hkids 0, hm]
    simp

/-- Witness of C14: the visited root of the initial board is expanded and the child
for the first legal move `{0, 0}` is returned. -/
theorem expantion_returns_witness :
    visitedRoot.root.getAt [] = some visitedRoot.root ∧ visitedRoot.root.children = [] ∧
      ¬ (visitedRoot.root.visits = 0 ∨ visitedRoot.root.state.isTerminal = true) ∧
      (visitedRoot.expantion []).2 = [] ++ [0] :=
  ⟨rfl, rfl, by decide,
   ((expantion_returns visitedRoot [] visitedRoot.root rfl rfl).2 (by decide)).1⟩

/-- C20: a child created by `expantion` from a node whose board satisfies the board
invariant records `BOT` or `OPP`, and the cell at the child's move holds that
recorded player: the recorded player is the one who just moved. `rollout` called
on the child runs its loop from the child's board starting with that same
recorded player, and scores the board that loop ends with. When the child's
board is not terminal, the first pass of that loop plays a second, legal cell
for the recorded player, `rollout` on the child equals `rollout` continued from
the board with both cells played and the other player to move, and in the
board that `rollout` scores both cells hold the recorded player. -/
theorem expanded_child_moves_again {F : Type} [FloatOps F] (m : MCTS F) (path : List Nat)
    (n : Node F) (hn : m.root.getAt path = some n) (hleaf : n.children = [])
    (hv : 0 < n.visits) (hterm : n.state.isTerminal = false) (hinv : BoardInv n.state)
    (i : Nat) (child : Node F)
    (hchild : (m.expantion path).1.root.getAt (path ++ [i]) = some child)
    (rnd : Nat → Nat) :
    (child.player = Player.BOT ∨ child.player = Player.OPP) ∧
      child.state.cellAt child.move = child.player ∧
      (MCTS.rollout child rnd).2 = (rolloutLoop child.state child.player rnd).2 ∧
      (MCTS.rollout child rnd).1
        = (if (rolloutLoop child.state child.player rnd).1.getWinner = Player.OPP then
            FloatOps.ofInt (-1)
          else if (rolloutLoop child.state child.player rnd).1.getWinner = Player.BOT then
            FloatOps.ofInt 1
          else FloatOps.ofInt 0) ∧
      (rolloutLoop child.state child.player rnd).1.cellAt child.move = child.player ∧
      (child.state.isTerminal = false →
        (rolloutPlies child.state child.player rnd)[0]?
            = some ⟨child.state, child.player, rolloutMove child.state rnd⟩ ∧
          rolloutMove child.state rnd ∈ child.state.possibleMoves ∧
          rolloutMove child.state rnd ≠ child.move ∧
          (child.state.applyMove (rolloutMove child.state rnd) child.player).1 = true ∧
          (child.state.applyMove (rolloutMove child.state rnd) child.player).2.cellAt
              (rolloutMove child.state rnd) = child.player ∧
          (child.state.applyMove (rolloutMove child.state rnd) child.player).2.cellAt
              child.move = child.player ∧
          rolloutLoop child.state child.player rnd
            = rolloutLoop (child.state.applyMove (rolloutMove child.state rnd) child.player).2
                (otherPlayer child.player) (fun k => rnd (k + 1)) ∧
          MCTS.rollout child rnd
            = MCTS.rollout
                (Node.mk child.move
                  (child.state.applyMove (rolloutMove child.state rnd) child.player).2
                  (otherPlayer child.player) child.children child.wins child.visits)
                (fun k => rnd (k + 1)) ∧
          (rolloutLoop child.state child.player rnd).1.cellAt (rolloutMove child.state rnd)
            = child.player) := by
  have hexp : ¬ (n.visits = 0 ∨ n.state.isTerminal = true) := by
    rintro (h | h)
    · omega
    · rw [hterm] at h; exact Bool.noConfusion h
  have hkids := (expantion_expand_getAt m path n hn hleaf hexp).2 i
  rw [hchild] at hkids
  cases hmv : n.state.possibleMoves[i]? with
  | none => rw [hmv] at hkids; exact Option.noConfusion hkids
  | some mv =>
    rw [hmv] at hkids
    simp only [Option.map_some', Option.some.injEq] at hkids
    subst hkids
    have hmem : mv ∈ n.state.possibleMoves := List.getElem?_mem hmv
    have hpl : otherPlayer n.player = Player.BOT ∨ otherPlayer n.player = Player.OPP := by
      unfold otherPlayer; split
      · exact Or.inl rfl
      · exact Or.inr rfl
    have hne : otherPlayer n.player ≠ Player.EMPTY := by
      rcases hpl with h | h <;> rw [h] <;> decide
    have hin : mv.inGrid := ((hinv.legal_iff mv).mp hmem).1
    have hcinv : BoardInv (n.state.applyMove mv (otherPlayer n.player)).2 :=
      boardInv_applyMove n.state hinv mv _ hne
    have hcell : (n.state.applyMove mv (otherPlayer n.player)).2.cellAt mv
        = otherPlayer n.player := by
      rw [cellAt_applyMove n.state mv mv _ hinv.shape hmem hin hin, if_pos rfl]
    have hfinal : (rolloutLoop (n.state.applyMove mv (otherPlayer n.player)).2
        (otherPlayer n.player) rnd).1.cellAt mv = otherPlayer n.player := by
      rw [rolloutLoop_keeps_cell _ _ _ rnd rfl hcinv hpl mv hin (by rw [hcell]; exact hne)]
      exact hcell
    refine ⟨hpl, hcell, ?_, ?_, hfinal, ?_⟩
    · simp only [MCTS.rollout, freshChild, Node.state_mk, Node.player_mk]
      split_ifs <;> rfl
    · simp only [MCTS.rollout, freshChild, Node.state_mk, Node.player_mk]
      split_ifs <;> rfl
    intro hnt
    simp only [freshChild, Node.state_mk, Node.player_mk, Node.move_mk, Node.children_mk,
      Node.wins_mk, Node.visits_mk] at hnt ⊢
    have hmem2 := rolloutMove_mem _ rnd hnt
    have hin2 := ((hcinv.legal_iff _).mp hmem2).1
    have hdiff : rolloutMove (n.state.applyMove mv (otherPlayer n.player)).2 rnd ≠ mv := by
      intro he
      have := ((hcinv.legal_iff _).mp hmem2).2
      rw [he, hcell] at this
      exact hne this
    have hcell2 : ((n.state.applyMove mv (otherPlayer n.player)).2.applyMove
        (rolloutMove (n.state.applyMove mv (otherPlayer n.player)).2 rnd)
        (otherPlayer n.player)).2.cellAt
          (rolloutMove (n.state.applyMove mv (otherPlayer n.player)).2 rnd)
        = otherPlayer n.player := by
      rw [cellAt_applyMove _ _ _ _ hcinv.shape hmem2 hin2 hin2, if_pos rfl]
    have hstep := rolloutLoop_step (n.state.applyMove mv (otherPlayer n.player)).2
      (otherPlayer n.player) rnd hnt
    refine ⟨by rw [rolloutPlies_step _ _ _ hnt]; simp, hmem2, hdiff, ?_, hcell2, ?_, hstep,
      ?_, ?_⟩
    · rw [applyMove_of_mem _ _ _ hmem2]
    · rw [cellAt_applyMove _ _ _ _ hcinv.shape hmem2 hin2 hin, if_neg (Ne.symm hdiff)]
      exact hcell
    · simp only [MCTS.rollout, Node.state_mk, Node.player_mk]
      rw [hstep]
    · rw [hstep,
        rolloutLoop_keeps_cell _ _ _ (fun k => rnd (k + 1)) rfl
          (boardInv_applyMove _ hcinv _ _ hne) (otherPlayer_ne _ hpl).2 _ hin2
          (by rw [hcell2]; exact hne)]
      exact hcell2

/-- Witness of C20: the first child of the expanded root of the initial board records
`BOT` with the move `{0, 0}`; its board is not terminal, and the rollout from it
plays `{0, 1}` for `BOT` again before `OPP` moves. -/
theorem expanded_child_moves_again_witness :
    visitedRoot.root.getAt [] = some visitedRoot.root ∧ visitedRoot.root.children = [] ∧
      0 < visitedRoot.root.visits ∧ visitedRoot.root.state.isTerminal = false ∧
      BoardInv visitedRoot.root.state ∧
      (visitedRoot.expantion []).1.root.getAt ([] ++ [0])
        = some (freshChild visitedRoot.root ⟨0, 0⟩) ∧
      (freshChild visitedRoot.root ⟨0, 0⟩).state.isTerminal = false ∧
      (freshChild visitedRoot.root ⟨0, 0⟩).player = Player.BOT ∧
      rolloutMove (freshChild visitedRoot.root ⟨0, 0⟩).state zeroStream = ⟨0, 1⟩ ∧
      MCTS.rollout (freshChild visitedRoot.root ⟨0, 0⟩) zeroStream
        = MCTS.rollout
            (Node.mk (freshChild visitedRoot.root ⟨0, 0⟩).move
              ((freshChild visitedRoot.root ⟨0, 0⟩).state.applyMove
                (rolloutMove (freshChild visitedRoot.root ⟨0, 0⟩).state zeroStream)
                (freshChild visitedRoot.root ⟨0, 0⟩).player).2
              (otherPlayer (freshChild visitedRoot.root ⟨0, 0⟩).player)
              (freshChild visitedRoot.root ⟨0, 0⟩).children
              (freshChild visitedRoot.root ⟨0, 0⟩).wins
              (freshChild visitedRoot.root ⟨0, 0⟩).visits)
            (fun k => zeroStream (k + 1)) ∧
      (rolloutLoop (freshChild visitedRoot.root ⟨0, 0⟩).state
          (freshChild visitedRoot.root ⟨0, 0⟩).player zeroStream).1.cellAt
          (rolloutMove (freshChild visitedRoot.root ⟨0, 0⟩).state zeroStream)
        = (freshChild visitedRoot.root ⟨0, 0⟩).player :=
  ⟨rfl, rfl, by decide, by decide, boardInv_initial,
   (expantion_expand_getAt visitedRoot [] visitedRoot.root rfl rfl (by decide)).2 0,
   by decide, rfl, by decide,
   ((expanded_child_moves_again visitedRoot [] visitedRoot.root rfl rfl (by decide) (by decide)
      boardInv_initial 0 (freshChild visitedRoot.root ⟨0, 0⟩)
      ((expantion_expand_getAt visitedRoot [] visitedRoot.root rfl rfl (by decide)).2 0)
      zeroStream).2.2.2.2.2 (by decide)).2.2.2.2.2.2.2.1,
   ((expanded_child_moves_again visitedRoot [] visitedRoot.root rfl rfl (by decide) (by decide)
      boardInv_initial 0 (freshChild visitedRoot.root ⟨0, 0⟩)
      ((expantion_expand_getAt visitedRoot [] visitedRoot.root rfl rfl (by decide)).2 0)
      zeroStream).2.2.2.2.2 (by decide)).2.2.2.2.2.2.2.2⟩

/-! ## UCB1 and the winner scan: claims -/

/-- C16: over real arithmetic, for a node with a parent, `visits > 0` and a real score,
`getUCB1` returns `exploitation + exploration` with
`exploration = 1.41 * sqrt(ln(parent.visits) / visits)` and `exploitation` equal to
`score / visits`, negated when the node's player is `OPP`. (`Real.log 0 = 0`, so
the statement carries the formula's meaning for `parent.visits ≥ 1`.) -/
theorem getUCB1_real_formula (parent n : Node RealInf) (score : ℝ)
    (hscore : n.wins = ⟨some score⟩) (hv : 0 < n.visits) :
    Node.getUCB1 (some parent) n
        = ⟨some ((if n.player = Player.OPP then -(score / (n.visits : ℝ))
              else score / (n.visits : ℝ))
            + 141 / 100 * Real.sqrt (Real.log (parent.visits : ℝ) / (n.visits : ℝ)))⟩ ∧
      (n.player = Player.BOT → Node.getUCB1 (some parent) n
        = ⟨some (score / (n.visits : ℝ)
            + 141 / 100 * Real.sqrt (Real.log (parent.visits : ℝ) / (n.visits : ℝ)))⟩) ∧
      (n.player = Player.OPP → Node.getUCB1 (some parent) n
        = ⟨some (-(score / (n.visits : ℝ))
            + 141 / 100 * Real.sqrt (Real.log (parent.visits : ℝ) / (n.visits : ℝ)))⟩) := by
  have hne : n.visits ≠ 0 := by omega
  have hmain : Node.getUCB1 (some parent) n
      = ⟨some ((if n.player = Player.OPP then -(score / (n.visits : ℝ))
            else score / (n.visits : ℝ))
          + 141 / 100 * Real.sqrt (Real.log (parent.visits : ℝ) / (n.visits : ℝ)))⟩ := by
    by_cases hp : n.player = Player.OPP
    · simp only [Node.getUCB1, hne, if_false, hscore, hp, if_true, FloatOps.add, FloatOps.div,
        FloatOps.ofInt, FloatOps.neg, FloatOps.toFloat, FloatOps.mul, FloatOps.lit141,
        FloatOps.sqrt, FloatOps.log, Option.map_some', Int.cast_natCast]
    · simp only [Node.getUCB1, hne, if_false, hscore, hp, FloatOps.add, FloatOps.div,
        FloatOps.ofInt, FloatOps.neg, FloatOps.toFloat, FloatOps.mul, FloatOps.lit141,
        FloatOps.sqrt, FloatOps.log, Option.map_some', Int.cast_natCast]
  refine ⟨hmain, ?_, ?_⟩
  · intro hp
    rw [hmain, hp]
    simp
  · intro hp
    rw [hmain, hp]
    simp

/-- Witness of C16: a `BOT` node with score 1 and 2 visits under a parent with 4
visits. -/
theorem getUCB1_real_formula_witness :
    (Node.mk ⟨0, 0⟩ {} Player.BOT [] (⟨some 1⟩ : RealInf) 2).wins = ⟨some 1⟩ ∧
      0 < (Node.mk ⟨0, 0⟩ {} Player.BOT [] (⟨some 1⟩ : RealInf) 2).visits ∧
      Node.getUCB1 (some (Node.mk ⟨-1, -1⟩ {} Player.OPP [] (⟨some 0⟩ : RealInf) 4))
          (Node.mk ⟨0, 0⟩ {} Player.BOT [] (⟨some 1⟩ : RealInf) 2)
        = ⟨some (1 / ((2 : Nat) : ℝ)
            + 141 / 100 * Real.sqrt (Real.log ((4 : Nat) : ℝ) / ((2 : Nat) : ℝ)))⟩ :=
  ⟨rfl, by decide,
   (getUCB1_real_formula (Node.mk ⟨-1, -1⟩ {} Player.OPP [] (⟨some 0⟩ : RealInf) 4)
      (Node.mk ⟨0, 0⟩ {} Player.BOT [] (⟨some 1⟩ : RealInf) 2) 1 rfl (by decide)).2.1 rfl⟩

/-- C17: on every 3x3 grid, reachable in play or not, `getWinner`, which tests row 0,
column 0, row 1, column 1, row 2, column 2 and then the diagonals, returns the
same player as the reference scan that tests the three rows, then the three
columns, then the diagonals and returns the occupant of the first complete
line. -/
theorem getWinner_refines_reference (g : Game) (hshape : Is3x3 g.grid) :
    g.getWinner = g.referenceWinner :=
  getWinner_eq_referenceWinner g

/-- Witness of C17: an unreachable grid with a complete row of `OPP` and a complete
row of `BOT`. -/
theorem getWinner_refines_reference_witness :
    Is3x3 ([[Player.EMPTY, Player.EMPTY, Player.EMPTY],
            [Player.OPP, Player.OPP, Player.OPP],
            [Player.BOT, Player.BOT, Player.BOT]] : List (List Player)) ∧
      (⟨[[Player.EMPTY, Player.EMPTY, Player.EMPTY],
         [Player.OPP, Player.OPP, Player.OPP],
         [Player.BOT, Player.BOT, Player.BOT]], [⟨0, 0⟩, ⟨1, 0⟩, ⟨2, 0⟩]⟩ : Game).getWinner
        = (⟨[[Player.EMPTY, Player.EMPTY, Player.EMPTY],
             [Player.OPP, Player.OPP, Player.OPP],
             [Player.BOT, Player.BOT, Player.BOT]],
            [⟨0, 0⟩, ⟨1, 0⟩, ⟨2, 0⟩]⟩ : Game).referenceWinner :=
  ⟨by decide, getWinner_refines_reference _ (by decide)⟩

/-! ## Visit counts and the returned move: claims -/

/-- C18: after any number of passes on a fresh engine, for every supplied board and
random stream, every node of the tree with children has one visit more than
its direct children together, and every node without children whose board is
not terminal has at most one visit. -/
theorem search_visits_balanced {F : Type} [FloatOps F] (board : Game) (rnd : Nat → Nat)
    (N : Nat) (q : List Nat) (x : Node F)
    (hx : ((MCTS.new board : MCTS F).search rnd N).1.root.getAt q = some x) :
    (x.children ≠ [] → x.visits = 1 + (x.children.map Node.visits).sum) ∧
      (x.children = [] → x.state.isTerminal = false → x.visits ≤ 1) :=
  search_allBalanced N (MCTS.new board) rnd (new_allBalanced board) q x hx

/-- Witness of C18: the root after two passes on the initial board. -/
theorem search_visits_balanced_witness :
    ((MCTS.new {} : MCTS Fixed).search zeroStream 2).1.root.getAt []
        = some ((MCTS.new {} : MCTS Fixed).search zeroStream 2).1.root ∧
      (((MCTS.new {} : MCTS Fixed).search zeroStream 2).1.root.children ≠ [] →
        ((MCTS.new {} : MCTS Fixed).search zeroStream 2).1.root.visits
          = 1 + (((MCTS.new {} : MCTS Fixed).search zeroStream 2).1.root.children.map
              Node.visits).sum) :=
  ⟨Node.getAt_nil _,
   (search_visits_balanced {} zeroStream 2 [] _ (Node.getAt_nil _)).1⟩

/-- C19: for a supplied board satisfying the board invariant and a number of passes
after which the root has a child, `getBestMove` returns a move of the supplied
board's legal-move list, which is not the root's sentinel `{-1, -1}`, and
`applyMove` of it for `BOT` on the supplied board succeeds. -/
theorem getBestMove_legal {F : Type} [FloatOps F] (board : Game) (hinv : BoardInv board)
    (rnd : Nat → Nat) (N : Nat)
    (hkids : ((MCTS.new board : MCTS F).search rnd N).1.root.children ≠ []) :
    ∃ mv : Point, (MCTS.new board : MCTS F).getBestMove rnd N = some mv ∧
      mv ∈ board.possibleMoves ∧ mv ≠ ⟨-1, -1⟩ ∧
      (board.applyMove mv Player.BOT).1 = true := by
  have hmoves : ((MCTS.new board : MCTS F).search rnd N).1.root.children.map Node.move
      = board.possibleMoves := by
    rcases search_root_moves board N (MCTS.new board : MCTS F) rnd rfl (Or.inl rfl) with h | h
    · exact absurd h hkids
    · exact h
  cases hmax : maxElement (fun a b : Node F => decide (a.visits < b.visits))
      ((MCTS.new board : MCTS F).search rnd N).1.root.children with
  | none => exact absurd ((maxElement_eq_none _ _).mp hmax) hkids
  | some r =>
    have hmem : r.2.move ∈ board.possibleMoves := by
      rw [← hmoves]
      exact List.mem_map_of_mem _ (List.getElem?_mem (maxElement_valid _ _ _ hmax))
    refine ⟨r.2.move, ?_, hmem, ?_, ?_⟩
    · simp only [MCTS.getBestMove, MCTS.reportBest, hmax]
    · intro he
      have hin := ((hinv.legal_iff _).mp hmem).1
      rw [he] at hin
      exact absurd hin (by decide)
    · rw [applyMove_of_mem board _ Player.BOT hmem]

/-- Witness of C19: the initial board and two passes. -/
theorem getBestMove_legal_witness :
    BoardInv ({} : Game) ∧
      ((MCTS.new {} : MCTS Fixed).search zeroStream 2).1.root.children ≠ [] ∧
      ∃ mv : Point, (MCTS.new {} : MCTS Fixed).getBestMove zeroStream 2 = some mv ∧
        mv ∈ ({} : Game).possibleMoves :=
  ⟨boardInv_initial, search_two_children {} zeroStream (by decide),
   (getBestMove_legal {} boardInv_initial zeroStream 2
      (search_two_children {} zeroStream (by decide))).imp (fun _ h => ⟨h.1, h.2.1⟩)⟩

end MCTS_TTT
